import Mathlib

/-!
Shallow embedding of the product-feedback analyzer pipeline (a TypeScript
repository) and proofs about it.

JavaScript strings are modelled as `List Char` (`Str`), JS timestamps
(milliseconds since the epoch, as produced by `Date.getTime()`) as `Int`,
and JS objects used as insertion-ordered dictionaries as association lists
in insertion order.  Fallible operations return `Except`/`Option`.
External collaborators (the Jira HTTP API, the generative text service,
the SendGrid sink, the filesystem) are passed in as explicit parameters
so that each code path of the source is a branch of a total function.
-/

/-- JS strings, modelled as lists of characters. -/
abbrev Str := List Char

/-- ASCII whitespace, as matched by the JS regex class `\s` and `trim()`
(the astral/unicode space code points are not modelled). -/
def isWsCh (c : Char) : Bool :=
  c = ' ' || c = '\t' || c = '\n' || c = '\r' || c = '\x0b' || c = '\x0c'

/-- Characters matched by the JS regex `.` (anything but a line terminator). -/
def isDotCh (c : Char) : Bool :=
  !(c = '\n' || c = '\r' || c = ' ' || c = ' ')

/-- Characters matched by the JS regex class `[A-Z]`. -/
def isUpperCh (c : Char) : Bool := 'A' ≤ c && c ≤ 'Z'

/-- Characters matched by the JS regex class `\d`. -/
def isDigitCh (c : Char) : Bool := '0' ≤ c && c ≤ '9'

/-- `String.prototype.toLowerCase` (modelled on the ASCII range). -/
def lowerStr (s : Str) : Str := s.map Char.toLower

/-- `String.prototype.trim`. -/
def trimStr (s : Str) : Str :=
  ((s.dropWhile isWsCh).reverse.dropWhile isWsCh).reverse

/-- `String.prototype.includes` (substring test). -/
def strContains (hay needle : Str) : Bool := decide (needle <:+: hay)

/-- `Array.prototype.join(' ')`. -/
def joinSpace : List Str → Str
  | [] => []
  | [s] => s
  | s :: rest => s ++ ' ' :: joinSpace rest

/-- `String.prototype.split('\n')`. -/
def splitNl : Str → List Str
  | [] => [[]]
  | c :: cs =>
    if c = '\n' then [] :: splitNl cs
    else
      match splitNl cs with
      | [] => [[c]]
      | h :: t => (c :: h) :: t

/-- One comment of a Jira issue (`{author, body}`). -/
structure JiraComment where
  author : Str
  body : Str
deriving DecidableEq

/-- The `description` field of a raw Jira issue: absent/null, an
Atlassian-Document-Format tree, a plain string, or some other scalar. -/
inductive ADF where
  | mk : Option Str → Option (List ADF) → ADF

/-- A raw Jira description value, as the dynamically-typed
`cleanDescription` receives it. -/
inductive Desc where
  | null : Desc
  | doc : ADF → Desc
  | str : Str → Desc
  | other : Desc

/-- A raw issue as returned by the Jira search endpoint (only the fields
the pipeline reads). -/
structure JiraIssue where
  key : Str
  summary : Str
  description : Desc
  statusName : Str
  assignee : Option Str
  reporter : Option Str
  created : Int
  updated : Int
  priority : Option Str
  issuetype : Str
  labels : Option (List Str)
  comments : Option (List JiraComment)
  productArea : Option Str
  pageFeatureTheme : Option Str

/-- `SimplifiedIssue` from `src/types` (the flattened record shape). -/
structure SimplifiedIssue where
  key : Str
  summary : Str
  description : Str
  status : Str
  assignee : Str
  reporter : Str
  created : Int
  updated : Int
  priority : Str
  issueType : Str
  labels : List Str
  recentComments : List Str
  productArea : Option Str
  pageFeatureTheme : Option Str
deriving DecidableEq

/-- The metrics block computed locally by the analyzer. -/
structure Metrics where
  totalIssues : Nat
  newIssues : Nat
  updatedIssues : Nat
  commonLabels : List Str
deriving DecidableEq

/-- The structured analysis result. -/
structure AnalysisResult where
  summary : Str
  highPriorityItems : List Str
  recommendations : List Str
  metrics : Metrics
deriving DecidableEq

/-- The sentinel used for absent/empty descriptions. -/
def noDescription : Str := "No description provided".toList

/-- The JS replacement `.replace(/\s+/g, ' ')`: every maximal run of
whitespace becomes a single space.  The boolean argument records whether
the previous character was part of a whitespace run already emitted. -/
def collapseWsAux : Bool → Str → Str
  | _, [] => []
  | prevWs, c :: cs =>
    if isWsCh c then
      if prevWs then collapseWsAux true cs else ' ' :: collapseWsAux true cs
    else c :: collapseWsAux false cs

/-- `.replace(/\s+/g, ' ')` on a whole string. -/
def collapseWs (s : Str) : Str := collapseWsAux false s

mutual
/-- `extractText` inside `extractTextFromADF` (src/src/jira/client.ts):
a node's truthy `text` wins, else the texts of its `content` children are
joined by spaces.  An empty `text` string is falsy in JS and falls through
to the content check. -/
def extractTextNode : ADF → Str
  | .mk t c =>
    match t with
    | some s => if s = [] then extractTextContent c else s
    | none => extractTextContent c

/-- The `node.content && Array.isArray(node.content)` branch. -/
def extractTextContent : Option (List ADF) → Str
  | some l => joinSpace (extractTextList l)
  | none => []

/-- `node.content.map(extractText)`. -/
def extractTextList : List ADF → List Str
  | [] => []
  | n :: ns => extractTextNode n :: extractTextList ns
end

/-- `extractTextFromADF` (src/src/jira/client.ts): guards on a truthy
`content`, flattens, collapses whitespace, trims, and falls back to the
sentinel when the result is empty. -/
def extractTextFromADF : ADF → Str
  | .mk t c =>
    match c with
    | none => noDescription
    | some cs =>
      let flat := trimStr (collapseWs (extractTextNode (.mk t (some cs))))
      if flat = [] then noDescription else flat

/-- `cleanDescription` (src/src/jira/client.ts:191-213).  A falsy
description (null/undefined/empty string) maps to the sentinel; an object
goes through the ADF extractor and is truncated to 1000 characters; a
plain string is whitespace-collapsed, trimmed, and truncated to 1000
characters; any other scalar reaches the final sentinel return.  The
`catch` branch around `extractTextFromADF` is unreachable here because the
extractor is total. -/
def cleanDescription : Desc → Str
  | .null => noDescription
  | .doc a => (extractTextFromADF a).take 1000
  | .str s =>
    if s = [] then noDescription
    else (trimStr (collapseWs s)).take 1000
  | .other => noDescription

/-- `extractRecentComments`: the last 3 comments, rendered as
`author: body`. -/
def extractRecentComments (i : JiraIssue) : List Str :=
  match i.comments with
  | none => []
  | some cs =>
    (cs.drop (cs.length - 3)).map (fun c => c.author ++ ':' :: ' ' :: c.body)

/-- `simplifyIssues` (src/src/jira/client.ts:146-163), per issue. -/
def simplifyIssue (i : JiraIssue) : SimplifiedIssue where
  key := i.key
  summary := i.summary
  description := cleanDescription i.description
  status := i.statusName
  assignee := i.assignee.getD "Unassigned".toList
  reporter := i.reporter.getD "Unknown".toList
  created := i.created
  updated := i.updated
  priority := i.priority.getD "None".toList
  issueType := i.issuetype
  labels := i.labels.getD []
  recentComments := extractRecentComments i
  productArea := i.productArea
  pageFeatureTheme := i.pageFeatureTheme

/-- `simplifyIssues` over a batch. -/
def simplifyIssues (issues : List JiraIssue) : List SimplifiedIssue :=
  issues.map simplifyIssue

/-- The 4-day lookback window in milliseconds
(`4 * 24 * 60 * 60 * 1000`). -/
def fourDaysMs : Int := 4 * 24 * 60 * 60 * 1000

/-- The own property names of `Object.prototype` (Node/V8), which a bare
object literal inherits: reading any of these keys on an object without
an own property of that name yields a truthy value (a function, or the
prototype object for the `__proto__` accessor). -/
def protoPropNames : List Str :=
  ["constructor".toList, "hasOwnProperty".toList, "isPrototypeOf".toList,
   "propertyIsEnumerable".toList, "toLocaleString".toList,
   "toString".toList, "valueOf".toList, "__defineGetter__".toList,
   "__defineSetter__".toList, "__lookupGetter__".toList,
   "__lookupSetter__".toList, "__proto__".toList]

/-- Numeric value of a digit string. -/
def digitsToNat (s : Str) : Nat :=
  s.foldl (fun n c => n * 10 + (c.toNat - '0'.toNat)) 0

/-- An ECMAScript array-index property key: a canonical numeric string
whose value is below `2^32 - 1`.  `[[OwnPropertyKeys]]` (and hence
`Object.entries`) enumerates such own keys first, in ascending numeric
order, before the other string keys in creation order. -/
def isArrayIndexKey (s : Str) : Bool :=
  decide (s ≠ []) && s.all isDigitCh &&
    (decide (s = ['0']) || decide (s.head? ≠ some '0')) &&
    decide (digitsToNat s < 4294967295)

/-- The value stored under a key of the `labelCounts` object: a number,
or the string produced when the first increment read a truthy inherited
`Object.prototype` function (`function ... + 1` concatenates, and every
further `(x || 0) + 1` keeps concatenating). -/
inductive JsCount where
  | num : Nat → JsCount
  | corrupt : JsCount
deriving DecidableEq

instance : Inhabited JsCount := ⟨.num 0⟩

/-- One increment `(labelCounts[label] || 0) + 1` of an own value. -/
def bumpVal : JsCount → JsCount
  | .num n => .num (n + 1)
  | .corrupt => .corrupt

/-- `labelCounts[label] = (labelCounts[label] || 0) + 1` on a JS object:
an own key is bumped in place; a genuinely absent key is created at the
end with count 1; a key colliding with an inherited `Object.prototype`
function reads truthy and is created corrupted (string concatenation);
and an assignment to `__proto__` is swallowed by the inherited setter,
so that label is dropped. -/
def bumpLabel : List (Str × JsCount) → Str → List (Str × JsCount)
  | [], l =>
    if l = "__proto__".toList then []
    else if l ∈ protoPropNames then [(l, .corrupt)]
    else [(l, .num 1)]
  | (k, v) :: rest, l =>
    if k = l then (k, bumpVal v) :: rest else (k, v) :: bumpLabel rest l

/-- The label-frequency table built by the nested `forEach` loops in
`calculateMetrics`: own keys in creation order. -/
def labelCounts (issues : List SimplifiedIssue) : List (Str × JsCount) :=
  ((issues.map (fun i => i.labels)).flatten).foldl bumpLabel []

/-- Ascending numeric order of array-index-like keys. -/
def numericAsc : (Str × JsCount) → (Str × JsCount) → Prop :=
  fun a b => digitsToNat a.1 ≤ digitsToNat b.1

instance : DecidableRel numericAsc :=
  fun a b => inferInstanceAs (Decidable (digitsToNat a.1 ≤ digitsToNat b.1))

/-- The `Object.entries` enumeration order over the own keys of the
count table: array-index-like keys first in ascending numeric order,
then the remaining string keys in creation order. -/
def entriesOrder (acc : List (Str × JsCount)) : List (Str × JsCount) :=
  List.insertionSort numericAsc
      (acc.filter (fun p => isArrayIndexKey p.1)) ++
    acc.filter (fun p => !isArrayIndexKey p.1)

/-- The comparator `([, a], [, b]) => b - a` passed to the stable JS
`Array.prototype.sort`, descending by count.  When either count is a
corrupted string the subtraction is NaN, which `SortCompare` maps to +0
(the elements compare equal); such a comparator is not consistent, so
ECMAScript leaves the sort order implementation-defined, and the stable
insertion sort used here is one refinement of it — the theorems below
quantify only over inputs whose counts are all numeric. -/
def countDescOrder : (Str × JsCount) → (Str × JsCount) → Prop :=
  fun a b =>
    match a.2, b.2 with
    | .num x, .num y => y ≤ x
    | _, _ => True

instance : DecidableRel countDescOrder := fun a b =>
  match a, b with
  | (_, .num x), (_, .num y) => inferInstanceAs (Decidable (y ≤ x))
  | (_, .num _), (_, .corrupt) => inferInstanceAs (Decidable True)
  | (_, .corrupt), _ => inferInstanceAs (Decidable True)

/-- `calculateMetrics` (src/src/claude/analyzer.ts:239-271): classify
issues against the trailing 4-day window and rank labels by frequency:
the count table is enumerated in `Object.entries` order and sorted by
the descending-count comparator with the ES2019+ stable sort. -/
def calculateMetrics (now : Int) (issues : List SimplifiedIssue) : Metrics :=
  let fourDaysAgo := now - fourDaysMs
  { totalIssues := issues.length
    newIssues :=
      (issues.filter (fun i => decide (fourDaysAgo < i.created))).length
    updatedIssues :=
      (issues.filter (fun i =>
        decide (fourDaysAgo < i.updated ∧ i.created ≤ fourDaysAgo))).length
    commonLabels :=
      ((List.insertionSort countDescOrder
        (entriesOrder (labelCounts issues))).take 5).map Prod.fst }

/-- Parser state: which section header was seen most recently. -/
inductive SectionState where
  | start
  | summary
  | priority
  | recs
deriving DecidableEq

/-- `trimmed.toLowerCase().includes('executive summary') || ...('overview')`. -/
def isSummaryHeader (t : Str) : Bool :=
  strContains (lowerStr t) "executive summary".toList ||
    strContains (lowerStr t) "overview".toList

/-- `...includes('high priority') || ...includes('immediate attention')`. -/
def isPriorityHeader (t : Str) : Bool :=
  strContains (lowerStr t) "high priority".toList ||
    strContains (lowerStr t) "immediate attention".toList

/-- `...includes('recommendation')`. -/
def isRecHeader (t : Str) : Bool :=
  strContains (lowerStr t) "recommendation".toList

/-- The test `/^\d+\./.test(trimmed)`. -/
def numDotTest (t : Str) : Bool :=
  let ds := t.takeWhile isDigitCh
  decide (ds ≠ []) &&
    (match t.drop ds.length with | '.' :: _ => true | _ => false)

/-- `trimmed.startsWith('-') || trimmed.startsWith('*') || /^\d+\./.test(trimmed)`. -/
def isListItem (t : Str) : Bool :=
  (match t with | c :: _ => c = '-' || c = '*' | [] => false) || numDotTest t

/-- `.replace(/^[-*]\s*/, '')`. -/
def stripBullet (t : Str) : Str :=
  match t with
  | c :: cs => if c = '-' || c = '*' then cs.dropWhile isWsCh else t
  | [] => []

/-- `.replace(/^\d+\.\s*/, '')`. -/
def stripNumDot (t : Str) : Str :=
  let ds := t.takeWhile isDigitCh
  if ds = [] then t
  else
    match t.drop ds.length with
    | '.' :: rest => rest.dropWhile isWsCh
    | _ => t

/-- Both marker-stripping replacements, applied in source order. -/
def stripListMarkers (t : Str) : Str := stripNumDot (stripBullet t)

/-- The mutable loop state of `parseAnalysis`. -/
structure ParseState where
  sec : SectionState
  summaryAcc : Str
  hp : List Str
  recsAcc : List Str
deriving DecidableEq

/-- One iteration of the `for (const line of lines)` loop in
`parseAnalysis` (src/src/claude/analyzer.ts:199-226). -/
def parseLine (st : ParseState) (line : Str) : ParseState :=
  let t := trimStr line
  if isSummaryHeader t then { st with sec := .summary }
  else if isPriorityHeader t then { st with sec := .priority }
  else if isRecHeader t then { st with sec := .recs }
  else if t = [] || (match t with | '#' :: _ => true | _ => false) then st
  else
    match st.sec with
    | .summary => { st with summaryAcc := st.summaryAcc ++ t ++ [' '] }
    | .priority =>
      if isListItem t then { st with hp := st.hp ++ [stripListMarkers t] }
      else st
    | .recs =>
      if isListItem t then
        { st with recsAcc := st.recsAcc ++ [stripListMarkers t] }
      else st
    | .start => st

/-- `parseAnalysis` (src/src/claude/analyzer.ts:185-234): line-oriented
section scanner with the first-500-characters fallback summary. -/
def parseAnalysis (text : Str) (metrics : Metrics) : AnalysisResult :=
  let final := (splitNl text).foldl parseLine ⟨.start, [], [], []⟩
  { summary :=
      if final.summaryAcc = [] then text.take 500 else final.summaryAcc
    highPriorityItems := final.hp
    recommendations := final.recsAcc
    metrics := metrics }

/-- `getEmptyAnalysis` (src/src/claude/analyzer.ts:276-288). -/
def getEmptyAnalysis : AnalysisResult :=
  { summary :=
      "No product feedback issues found in the specified time period.".toList
    highPriorityItems := []
    recommendations := ["Continue monitoring for new feedback".toList]
    metrics :=
      { totalIssues := 0, newIssues := 0, updatedIssues := 0
        commonLabels := [] } }

/-- Join a list of strings with a separator (`Array.prototype.join`). -/
def joinSep (sep : Str) : List Str → Str
  | [] => []
  | [s] => s
  | s :: rest => s ++ sep ++ joinSep sep rest

/-- One issue block of `formatIssuesForAnalysis`.  Locale date rendering
is modelled as the decimal timestamp; the literal text is otherwise as in
the source. -/
def formatIssueBlock (idx : Nat) (i : SimplifiedIssue) : Str :=
  "### ".toList ++ (toString (idx + 1)).toList ++ ". [".toList ++ i.key ++
    "] ".toList ++ i.summary ++ ['\n'] ++
  "- **Status**: ".toList ++ i.status ++ ['\n'] ++
  "- **Priority**: ".toList ++ i.priority ++ ['\n'] ++
  "- **Type**: ".toList ++ i.issueType ++ ['\n'] ++
  "- **Reporter**: ".toList ++ i.reporter ++ ['\n'] ++
  "- **Updated**: ".toList ++ (toString i.updated).toList ++ ['\n'] ++
  (if i.labels ≠ [] then
    "- **Labels**: ".toList ++ joinSep ", ".toList i.labels ++ ['\n']
   else []) ++
  "- **Description**: ".toList ++ i.description ++ ['\n'] ++
  (if i.recentComments ≠ [] then
    "- **Recent Comments**:\n".toList ++
      (i.recentComments.map
        (fun c => "  - ".toList ++ c.take 200 ++ ['\n'])).flatten
   else []) ++
  ['\n']

/-- `formatIssuesForAnalysis` (src/src/claude/analyzer.ts:155-180). -/
def formatIssuesForAnalysis (issues : List SimplifiedIssue) : Str :=
  joinSep "\n---\n\n".toList (issues.enum.map (fun p => formatIssueBlock p.1 p.2))

/-- `buildAnalysisPrompt` (src/src/claude/analyzer.ts:73-150).  The long
instruction prose is abbreviated — it is an opaque constant to every
property proved here — but the dynamic parts (last-run context, the two
issue blocks, the optional themes instruction) are interpolated as in the
source. -/
def buildAnalysisPrompt (newIssuesText : Str) (allIssuesText : Option Str)
    (metrics : Metrics) (lastRunDate : Option Int) : Str :=
  (match lastRunDate with
   | some d => "\nLast email was sent: ".toList ++ (toString d).toList
   | none => []) ++
  "You are a product manager analyzing customer feedback from Jira.".toList ++
  "\n## NEW/UPDATED Product Feedback Issues (".toList ++
    (toString metrics.totalIssues).toList ++ " new since last run)\n".toList ++
  newIssuesText ++
  (match allIssuesText with
   | some t =>
     "\n## ALL Product Feedback Issues (for Executive Summary context)\n".toList
       ++ t
   | none => []) ++
  "\n## Your Task\n## Executive Summary\n## High Priority Items\n## Recommendations\nEXACTLY 3 items in each section.".toList

/-- `analyzeIssues` (src/src/claude/analyzer.ts:24-68).  The generative
service is an explicit parameter from prompt to response; the boolean in
the result records whether it was invoked.  An error from the service is
rethrown as the `Failed to analyze issues with Claude` error. -/
def analyzeIssues (service : Str → Except Str Str) (now : Int)
    (newIssues : List SimplifiedIssue)
    (allIssues : Option (List SimplifiedIssue))
    (lastRunDate : Option Int) : Except Str AnalysisResult × Bool :=
  if newIssues.length = 0 then (Except.ok getEmptyAnalysis, false)
  else
    let newIssuesText := formatIssuesForAnalysis newIssues
    let allIssuesText :=
      match allIssues with
      | some all =>
        if all.length ≠ newIssues.length then
          some (formatIssuesForAnalysis all)
        else none
      | none => none
    let metrics := calculateMetrics now newIssues
    match service
        (buildAnalysisPrompt newIssuesText allIssuesText metrics lastRunDate) with
    | .ok text => (.ok (parseAnalysis text metrics), true)
    | .error e =>
      (.error ("Failed to analyze issues with Claude: ".toList ++ e), true)

/-- The on-disk cache snapshot (`{timestamp, issues}`). -/
structure CacheData where
  timestamp : Int
  issues : List SimplifiedIssue
deriving DecidableEq

/-- The state of the cache file as `loadJiraIssues` finds it: missing,
present but unparsable, or present and parsed. -/
inductive CacheFileState where
  | absent
  | corrupt
  | parsed : CacheData → CacheFileState
deriving DecidableEq

/-- What a call to `loadJiraIssues` produces: the returned issues, whether
the Jira fetch was invoked, and the cache file afterwards. -/
structure LoadResult where
  issues : List SimplifiedIssue
  fetchInvoked : Bool
  cacheAfter : CacheFileState
deriving DecidableEq

/-- The freshness window: `60 * 60 * 1000` milliseconds. -/
def oneHourMs : Int := 60 * 60 * 1000

/-- `loadJiraIssues` (src/src/query/loader.ts:16-58).  `now` stands for
both `Date.now()` in the age check and the `new Date().toISOString()`
written into the refreshed snapshot; `fetchResult` is what
`fetchAllBoardIssues` would return.  A missing file skips the cache
branch, and a file whose read or parse throws is caught and also falls
through to the fetch; the fetch branch persists the fresh set with the
current timestamp.  (The cache write is wrapped in its own try/catch in
the source; a failed write still returns the fetched issues, and is not
modelled separately.) -/
def loadJiraIssues (forceRefresh : Bool) (cacheFile : CacheFileState)
    (now : Int) (fetchResult : List JiraIssue) : LoadResult :=
  let fetched := simplifyIssues fetchResult
  let fetchBranch : LoadResult :=
    ⟨fetched, true, .parsed ⟨now, fetched⟩⟩
  if forceRefresh then fetchBranch
  else
    match cacheFile with
    | .absent => fetchBranch
    | .corrupt => fetchBranch
    | .parsed c =>
      if now - c.timestamp < oneHourMs then ⟨c.issues, false, cacheFile⟩
      else fetchBranch

/-- The error thrown by `loadCachedIssues` when no cache file exists. -/
def noCachedDataMsg : Str :=
  "No cached data found. Run \"npm run query\" first.".toList

/-- The error when the cache file exists but `JSON.parse` throws. -/
def cacheParseFailedMsg : Str := "Unexpected token in JSON".toList

/-- `loadCachedIssues` (src/src/query/search.ts:15-23). -/
def loadCachedIssues : CacheFileState → Except Str (List SimplifiedIssue)
  | .absent => .error noCachedDataMsg
  | .corrupt => .error cacheParseFailedMsg
  | .parsed c => .ok c.issues

/-- `findByKey` (src/src/query/search.ts:28-31). -/
def findByKey (st : CacheFileState) (key : Str) :
    Except Str (Option SimplifiedIssue) :=
  (loadCachedIssues st).map (fun issues =>
    issues.find? (fun i => i.key = key))

/-- `searchByText` (src/src/query/search.ts:36-45). -/
def searchByText (st : CacheFileState) (searchTerm : Str) :
    Except Str (List SimplifiedIssue) :=
  (loadCachedIssues st).map (fun issues =>
    let lowerSearch := lowerStr searchTerm
    issues.filter (fun i =>
      strContains (lowerStr i.summary) lowerSearch ||
      strContains (lowerStr i.description) lowerSearch ||
      strContains (lowerStr i.key) lowerSearch))

/-- `searchByProductArea` (src/src/query/search.ts:50-57); the optional
chaining `issue.productArea?.toLowerCase().includes(...)` makes an absent
field evaluate to a falsy filter result. -/
def searchByProductArea (st : CacheFileState) (productArea : Str) :
    Except Str (List SimplifiedIssue) :=
  (loadCachedIssues st).map (fun issues =>
    let lowerSearch := lowerStr productArea
    issues.filter (fun i =>
      match i.productArea with
      | some s => strContains (lowerStr s) lowerSearch
      | none => false))

/-- `searchByTheme` (src/src/query/search.ts:62-69). -/
def searchByTheme (st : CacheFileState) (theme : Str) :
    Except Str (List SimplifiedIssue) :=
  (loadCachedIssues st).map (fun issues =>
    let lowerSearch := lowerStr theme
    issues.filter (fun i =>
      match i.pageFeatureTheme with
      | some s => strContains (lowerStr s) lowerSearch
      | none => false))

/-- `getAllIssues` (src/src/query/search.ts:74-76). -/
def getAllIssues (st : CacheFileState) : Except Str (List SimplifiedIssue) :=
  loadCachedIssues st

/-- The value of `issue[fieldName]` for a `keyof SimplifiedIssue`: a
string, something that is not a string (e.g. the labels array), or
absent (`undefined`). -/
inductive FieldVal where
  | str : Str → FieldVal
  | nonString : FieldVal
  | absent : FieldVal

/-- `'Uncategorized'`. -/
def uncategorizedKey : Str := "Uncategorized".toList

/-- The key computation of `groupIssuesByField`:
`fieldValue && typeof fieldValue === 'string' ? fieldValue : 'Uncategorized'`
(an empty string is falsy and also maps to `Uncategorized`). -/
def groupKeyOf (f : SimplifiedIssue → FieldVal) (i : SimplifiedIssue) : Str :=
  match f i with
  | .str s => if s = [] then uncategorizedKey else s
  | .nonString => uncategorizedKey
  | .absent => uncategorizedKey

/-- The TypeError thrown when `grouped[key]` resolves to a truthy
inherited `Object.prototype` member and `.push` is called on it. -/
def pushTypeErrorMsg : Str :=
  "grouped[key].push is not a function".toList

/-- The successful-path update `grouped[key].push(issue)` for a key that
is either an own key or genuinely absent: append to the existing group
(keeping creation order) or create a new group at the end. -/
def pushGroupAux (acc : List (Str × List SimplifiedIssue)) (k : Str)
    (i : SimplifiedIssue) : List (Str × List SimplifiedIssue) :=
  match acc with
  | [] => [(k, [i])]
  | (k', g) :: rest =>
    if k' = k then (k', g ++ [i]) :: rest
    else (k', g) :: pushGroupAux rest k i

/-- `if (!grouped[key]) grouped[key] = []; grouped[key].push(issue)` with
JS object lookup: an own key is appended to; a missing key colliding
with an inherited `Object.prototype` member reads truthy, so the
initialization is skipped and `.push` on the inherited value (a
function, or the prototype object for `__proto__`) throws a TypeError;
only a genuinely absent key creates a fresh group. -/
def pushGroup (acc : List (Str × List SimplifiedIssue)) (k : Str)
    (i : SimplifiedIssue) :
    Except Str (List (Str × List SimplifiedIssue)) :=
  match acc with
  | [] =>
    if k ∈ protoPropNames then .error pushTypeErrorMsg
    else .ok [(k, [i])]
  | (k', g) :: rest =>
    if k' = k then .ok ((k', g ++ [i]) :: rest)
    else (pushGroup rest k i).map (fun r => (k', g) :: r)

/-- The `issues.forEach` loop of `groupIssuesByField`; a thrown
TypeError aborts the traversal. -/
def groupFold (f : SimplifiedIssue → FieldVal)
    (issues : List SimplifiedIssue)
    (acc : List (Str × List SimplifiedIssue)) :
    Except Str (List (Str × List SimplifiedIssue)) :=
  match issues with
  | [] => .ok acc
  | i :: rest =>
    match pushGroup acc (groupKeyOf f i) i with
    | .error e => .error e
    | .ok newAcc => groupFold f rest newAcc

/-- `groupIssuesByField` (src/src/index.ts:14-31). -/
def groupIssuesByField (issues : List SimplifiedIssue)
    (f : SimplifiedIssue → FieldVal) :
    Except Str (List (Str × List SimplifiedIssue)) :=
  groupFold f issues []

/-- The outcomes of the external steps of one `main` invocation
(src/src/index.ts:76-171), in the order the orchestrator consults them,
plus the wall-clock start time captured as `runStartTime`. -/
structure OrchestratorEnv where
  lastRun : Option Int
  configOk : Bool
  jiraConnected : Bool
  emailConfigValid : Bool
  fetchResult : Except Str (List JiraIssue)
  claudeResponse : Except Str Str
  emailResult : Except Str Unit
  now : Int
  runStartTime : Int

/-- What a run leaves behind: the run-state file write (if any) and the
process exit code. -/
structure RunOutcome where
  savedLastRun : Option Int
  exitCode : Nat
deriving DecidableEq

/-- `issue['productArea']` as `groupIssuesByField` reads it. -/
def productAreaField (i : SimplifiedIssue) : FieldVal :=
  match i.productArea with
  | some s => .str s
  | none => .absent

/-- `issue['pageFeatureTheme']` as `groupIssuesByField` reads it. -/
def pageFeatureThemeField (i : SimplifiedIssue) : FieldVal :=
  match i.pageFeatureTheme with
  | some s => .str s
  | none => .absent

/-- `main` (src/src/index.ts:76-171).  Any thrown error lands in the
top-level catch, which exits with code 1 and reaches no further step;
zero fetched issues return early with exit 0; between analysis and the
email the issues are grouped by product area and by page/feature/theme
(src/src/index.ts:143-144), and either grouping call can throw;
`saveLastRunTimestamp` runs only after the email step succeeded and
writes `runStartTime`. -/
def mainRun (env : OrchestratorEnv) : RunOutcome :=
  if !env.configOk then ⟨none, 1⟩
  else if !env.jiraConnected then ⟨none, 1⟩
  else if !env.emailConfigValid then ⟨none, 1⟩
  else
    match env.fetchResult with
    | .error _ => ⟨none, 1⟩
    | .ok issues =>
      if issues.length = 0 then ⟨none, 0⟩
      else
        let simplified := simplifyIssues issues
        match
          analyzeIssues (fun _ => env.claudeResponse) env.now simplified
            none none with
        | (.error _, _) => ⟨none, 1⟩
        | (.ok _, _) =>
          match groupIssuesByField simplified productAreaField with
          | .error _ => ⟨none, 1⟩
          | .ok _ =>
            match groupIssuesByField simplified pageFeatureThemeField with
            | .error _ => ⟨none, 1⟩
            | .ok _ =>
              match env.emailResult with
              | .error _ => ⟨none, 1⟩
              | .ok _ => ⟨some env.runStartTime, 0⟩


/-- Scan for the earliest closing `**` (the lazy `(.+?)\*\*` tail): stop
at the first two consecutive asterisks, fail on a character the regex `.`
cannot match or at end of input. -/
def closeScan : Str → Option (Str × Str)
  | [] => none
  | c :: cs =>
    if c = '*' && cs.head? = some '*' then some ([], cs.tail)
    else if isDotCh c then (closeScan cs).map (fun p => (c :: p.1, p.2))
    else none

/-- After an opening `**`, match `(.+?)\*\*` lazily: at least one
`.`-matching character, then the earliest closing `**`.  Returns the
captured group and the remainder after the close. -/
def findClose : Str → Option (Str × Str)
  | [] => none
  | c :: cs =>
    if isDotCh c then (closeScan cs).map (fun p => (c :: p.1, p.2))
    else none

/-- `'<strong>'`. -/
def strongOpen : Str := "<strong>".toList

/-- `'</strong>'`. -/
def strongClose : Str := "</strong>".toList

/-- The global replace `/\*\*(.+?)\*\*/g → '<strong>$1</strong>'` as a
left-to-right scan: at a position opening with `**` and admitting a lazy
close, emit the rewritten span and continue after it; otherwise emit one
character and advance, as the regex engine does.  The fuel argument only
forces structural termination; `length + 1` fuel always suffices because
every step consumes at least one input character. -/
def boldReplF : Nat → Str → Str
  | 0, l => l
  | _ + 1, [] => []
  | fuel + 1, c :: cs =>
    if c = '*' && cs.head? = some '*' then
      match findClose cs.tail with
      | some (inner, r) =>
        strongOpen ++ inner ++ strongClose ++ boldReplF fuel r
      | none => c :: boldReplF fuel cs
    else c :: boldReplF fuel cs

/-- The bold-markdown rewrite of `formatText`. -/
def boldRepl (l : Str) : Str := boldReplF (l.length + 1) l

/-- `'<span class="issue-key">'`. -/
def spanOpenKey : Str := "<span class=\"issue-key\">".toList

/-- `'</span>'`. -/
def spanCloseKey : Str := "</span>".toList

/-- The global replace `/([A-Z]+-\d+)/g → '<span class="issue-key">$1</span>'`
as a left-to-right scan.  `[A-Z]+` and `\d+` are effectively
backtracking-free here because `-` and digits are not uppercase letters,
so a match is a maximal uppercase run, a hyphen, and a maximal digit run;
on failure the engine advances one character. -/
def idReplF : Nat → Str → Str
  | 0, l => l
  | _ + 1, [] => []
  | fuel + 1, c :: cs =>
    if isUpperCh c then
      match (c :: cs).dropWhile isUpperCh with
      | '-' :: r2 =>
        let ds := r2.takeWhile isDigitCh
        if ds = [] then c :: idReplF fuel cs
        else
          spanOpenKey ++ (c :: cs).takeWhile isUpperCh ++ '-' :: ds ++
            spanCloseKey ++ idReplF fuel (r2.dropWhile isDigitCh)
      | _ => c :: idReplF fuel cs
    else c :: idReplF fuel cs

/-- The issue-key highlighting pass of `formatText`. -/
def idRepl (l : Str) : Str := idReplF (l.length + 1) l

/-- `formatText` (src/src/email/sender.ts:330-338): first the bold
rewrite, then the issue-key highlighting, in source order. -/
def formatText (text : Str) : Str := idRepl (boldRepl text)

lemma countP_add_countP_le_length {α : Type} (p q : α → Bool) (l : List α)
    (h : ∀ a ∈ l, ¬(p a = true ∧ q a = true)) :
    l.countP p + l.countP q ≤ l.length := by
  induction l with
  | nil => simp
  | cons a t ih =>
    have ht : ∀ b ∈ t, ¬(p b = true ∧ q b = true) := fun b hb => h b (by simp [hb])
    have ha := h a (by simp)
    have iht := ih ht
    by_cases hp : p a = true <;> by_cases hq : q a = true <;>
      simp [List.countP_cons, hp, hq] at ha ⊢ <;> omega

/-- C5: `calculateMetrics` classifies an issue as new exactly when its
creation time lies inside the trailing 4-day lookback window, as updated
exactly when its update time lies inside the window while its creation
time does not, and reports the input length as the total — hence
new + updated never exceeds the total. -/
theorem claim5_classification_invariant (now : Int)
    (issues : List SimplifiedIssue) :
    (calculateMetrics now issues).totalIssues = issues.length ∧
    (calculateMetrics now issues).newIssues =
      issues.countP (fun i => decide (now - fourDaysMs < i.created)) ∧
    (calculateMetrics now issues).updatedIssues =
      issues.countP (fun i =>
        decide (now - fourDaysMs < i.updated ∧ i.created ≤ now - fourDaysMs)) ∧
    (calculateMetrics now issues).newIssues +
        (calculateMetrics now issues).updatedIssues ≤
      (calculateMetrics now issues).totalIssues := by
  refine ⟨rfl, by simp [calculateMetrics, List.countP_eq_length_filter], by
    simp [calculateMetrics, List.countP_eq_length_filter], ?_⟩
  have h := countP_add_countP_le_length
    (fun i : SimplifiedIssue => decide (now - fourDaysMs < i.created))
    (fun i : SimplifiedIssue =>
      decide (now - fourDaysMs < i.updated ∧ i.created ≤ now - fourDaysMs))
    issues (by intro a _ hc; simp at hc; omega)
  simpa [calculateMetrics, List.countP_eq_length_filter] using h

/-- C4: with an empty new-issue list, `analyzeIssues` returns the fixed
empty analysis — zero-valued metrics, empty high-priority list — and
never invokes the generative service (the invocation flag is `false` for
every service, history argument and last-run date). -/
theorem claim4_empty_short_circuit (service : Str → Except Str Str)
    (now : Int) (allIssues : Option (List SimplifiedIssue))
    (lastRunDate : Option Int) :
    analyzeIssues service now [] allIssues lastRunDate =
      (Except.ok getEmptyAnalysis, false) ∧
    getEmptyAnalysis.metrics.totalIssues = 0 ∧
    getEmptyAnalysis.metrics.newIssues = 0 ∧
    getEmptyAnalysis.metrics.updatedIssues = 0 ∧
    getEmptyAnalysis.metrics.commonLabels = [] ∧
    getEmptyAnalysis.highPriorityItems = [] := by
  exact ⟨rfl, rfl, rfl, rfl, rfl, rfl⟩

/-- C6: every search operation over the cached snapshot fails with the
`No cached data` error when no cache file is present, and computes its
matches from the parsed snapshot when one exists. -/
theorem claim6_search_without_cache (key searchTerm productArea theme : Str) :
    findByKey .absent key = .error noCachedDataMsg ∧
    searchByText .absent searchTerm = .error noCachedDataMsg ∧
    searchByProductArea .absent productArea = .error noCachedDataMsg ∧
    searchByTheme .absent theme = .error noCachedDataMsg ∧
    getAllIssues .absent = .error noCachedDataMsg ∧
    (∀ c : CacheData,
      findByKey (.parsed c) key =
        .ok (c.issues.find? (fun i => i.key = key)) ∧
      getAllIssues (.parsed c) = .ok c.issues) := by
  exact ⟨rfl, rfl, rfl, rfl, rfl, fun c => ⟨rfl, rfl⟩⟩

/-- C2: if `forceRefresh` is off and a parsed snapshot younger than one
hour exists, the cached issues are returned without fetching; in every
other case — forced refresh, missing file, unparsable file, or a
snapshot at least one hour old — the full set is fetched, persisted with
the current timestamp, and returned.  The corrupt case returns via the
same total function, i.e. never throws. -/
theorem claim2_cache_freshness_law (forceRefresh : Bool)
    (cacheFile : CacheFileState) (now : Int) (fetchResult : List JiraIssue) :
    (∀ c : CacheData, cacheFile = .parsed c → forceRefresh = false →
      now - c.timestamp < oneHourMs →
      loadJiraIssues forceRefresh cacheFile now fetchResult =
        ⟨c.issues, false, cacheFile⟩) ∧
    ((forceRefresh = true ∨ cacheFile = .absent ∨ cacheFile = .corrupt ∨
        ∃ c : CacheData, cacheFile = .parsed c ∧
          oneHourMs ≤ now - c.timestamp) →
      loadJiraIssues forceRefresh cacheFile now fetchResult =
        ⟨simplifyIssues fetchResult, true,
          .parsed ⟨now, simplifyIssues fetchResult⟩⟩) := by
  constructor
  · intro c hc hf hage
    subst hc hf
    simp [loadJiraIssues, hage]
  · intro h
    rcases h with h | h | h | ⟨c, hc, hage⟩
    · subst h; simp [loadJiraIssues]
    · subst h; cases forceRefresh <;> simp [loadJiraIssues]
    · subst h; cases forceRefresh <;> simp [loadJiraIssues]
    · subst hc
      cases forceRefresh <;> simp [loadJiraIssues]
      omega

theorem claim2_witness :
    loadJiraIssues false (.parsed ⟨0, []⟩) 10 [] =
      ⟨[], false, .parsed ⟨0, []⟩⟩ :=
  (claim2_cache_freshness_law false (.parsed ⟨0, []⟩) 10 []).1
    ⟨0, []⟩ rfl rfl (by decide)

lemma collapseWsAux_of_no_ws (b : Bool) (l : Str)
    (h : ∀ c ∈ l, isWsCh c = false) : collapseWsAux b l = l := by
  induction l generalizing b with
  | nil => rfl
  | cons c cs ih =>
    have hc := h c (by simp)
    simp [collapseWsAux, hc, ih false (fun d hd => h d (by simp [hd]))]

lemma dropWhile_of_no_match {p : Char → Bool} {l : Str}
    (h : ∀ c ∈ l, p c = false) : l.dropWhile p = l := by
  cases l with
  | nil => rfl
  | cons c cs => simp [List.dropWhile, h c (by simp)]

lemma trimStr_of_no_ws (l : Str) (h : ∀ c ∈ l, isWsCh c = false) :
    trimStr l = l := by
  unfold trimStr
  rw [dropWhile_of_no_match h, dropWhile_of_no_match (by
    intro c hc
    exact h c (List.mem_reverse.mp hc)), List.reverse_reverse]

/-- C9: `cleanDescription` is a total function whose result never exceeds
1000 characters, for an absent description, a nested rich-text document,
a plain string and any other scalar alike; in particular a 5000-character
plain body is truncated to exactly its first 1000 characters. -/
theorem claim9_truncation_bound :
    (∀ d : Desc, (cleanDescription d).length ≤ 1000) ∧
    cleanDescription (.str (List.replicate 5000 'a')) =
      List.replicate 1000 'a' := by
  constructor
  · intro d
    cases d with
    | null => decide
    | doc a => exact List.length_take_le _ _
    | str s =>
      rw [show cleanDescription (.str s) =
        (if s = ([] : Str) then noDescription
         else (trimStr (collapseWs s)).take 1000) from rfl]
      split
      · decide
      · exact List.length_take_le _ _
    | other => decide
  · have hnw : ∀ c ∈ List.replicate 5000 'a', isWsCh c = false := by
      intro c hc
      rw [List.eq_of_mem_replicate hc]
      decide
    have hne : List.replicate 5000 'a' ≠ ([] : Str) := by
      intro h
      have h2 := congrArg List.length h
      rw [List.length_replicate] at h2
      exact absurd h2 (by norm_num)
    rw [show cleanDescription (.str (List.replicate 5000 'a')) =
      (if List.replicate 5000 'a' = ([] : Str) then noDescription
       else (trimStr (collapseWs (List.replicate 5000 'a'))).take 1000) from rfl]
    rw [if_neg hne, collapseWs, collapseWsAux_of_no_ws _ _ hnw,
      trimStr_of_no_ws _ hnw, List.take_replicate]
    norm_num

lemma parseLine_start_of_no_header (line : Str)
    (h1 : isSummaryHeader (trimStr line) = false)
    (h2 : isPriorityHeader (trimStr line) = false)
    (h3 : isRecHeader (trimStr line) = false) :
    parseLine ⟨.start, [], [], []⟩ line = ⟨.start, [], [], []⟩ := by
  simp only [parseLine, h1, h2, h3, Bool.false_eq_true, if_false]
  split <;> rfl

lemma foldl_parseLine_of_no_header (lines : List Str)
    (h : ∀ line ∈ lines, isSummaryHeader (trimStr line) = false ∧
      isPriorityHeader (trimStr line) = false ∧
      isRecHeader (trimStr line) = false) :
    lines.foldl parseLine ⟨.start, [], [], []⟩ = ⟨.start, [], [], []⟩ := by
  induction lines with
  | nil => rfl
  | cons l ls ih =>
    have hl := h l (by simp)
    rw [List.foldl_cons, parseLine_start_of_no_header l hl.1 hl.2.1 hl.2.2]
    exact ih (fun line hline => h line (by simp [hline]))

lemma parseLine_summary_extend (st : ParseState) (line : Str) :
    ∃ u, (parseLine st line).summaryAcc = st.summaryAcc ++ u := by
  simp only [parseLine]
  split
  · exact ⟨[], by simp⟩
  split
  · exact ⟨[], by simp⟩
  split
  · exact ⟨[], by simp⟩
  split
  · exact ⟨[], by simp⟩
  split
  · exact ⟨trimStr line ++ [' '], by simp⟩
  · split <;> exact ⟨[], by simp⟩
  · split <;> exact ⟨[], by simp⟩
  · exact ⟨[], by simp⟩

lemma foldl_parseLine_summary_extend (lines : List Str) (st : ParseState) :
    ∃ u, (lines.foldl parseLine st).summaryAcc = st.summaryAcc ++ u := by
  induction lines generalizing st with
  | nil => exact ⟨[], by simp⟩
  | cons l ls ih =>
    obtain ⟨u, hu⟩ := ih (parseLine st l)
    obtain ⟨v, hv⟩ := parseLine_summary_extend st l
    exact ⟨v ++ u, by rw [List.foldl_cons, hu, hv, List.append_assoc]⟩

lemma take_500_ne_nil (l : Str) (h : l ≠ []) : l.take 500 ≠ [] := by
  cases l with
  | nil => exact absurd rfl h
  | cons a t =>
    rw [show (500 : ℕ) = 499 + 1 from rfl, List.take_succ_cons]
    simp

/-- C3: `parseAnalysis` is a total function (it never throws); on any
response in which no line matches a recognized section header — the
case-insensitive substrings `executive summary`/`overview`,
`high priority`/`immediate attention`, `recommendation` — it returns the
first 500 characters of the raw response as the summary with both list
fields empty, and on any non-empty response its summary is non-empty. -/
theorem claim3_parser_robustness (text : Str) (metrics : Metrics) :
    ((∀ line ∈ splitNl text,
        isSummaryHeader (trimStr line) = false ∧
        isPriorityHeader (trimStr line) = false ∧
        isRecHeader (trimStr line) = false) →
      parseAnalysis text metrics =
        ⟨text.take 500, [], [], metrics⟩) ∧
    (text ≠ [] → (parseAnalysis text metrics).summary ≠ []) := by
  constructor
  · intro h
    unfold parseAnalysis
    rw [foldl_parseLine_of_no_header (splitNl text) h]
    rfl
  · intro hne
    obtain ⟨u, hu⟩ :=
      foldl_parseLine_summary_extend (splitNl text) ⟨.start, [], [], []⟩
    unfold parseAnalysis
    simp only [hu, List.nil_append]
    split
    · exact take_500_ne_nil text hne
    · next hns => exact hns

theorem claim3_witness :
    parseAnalysis "plain text with no sections".toList ⟨1, 1, 0, []⟩ =
      ⟨"plain text with no sections".toList.take 500, [], [],
        ⟨1, 1, 0, []⟩⟩ :=
  (claim3_parser_robustness "plain text with no sections".toList
    ⟨1, 1, 0, []⟩).1 (by decide)

lemma takeWhile_all {p : Char → Bool} {l : Str} (h : ∀ c ∈ l, p c = true) :
    l.takeWhile p = l := by
  induction l with
  | nil => rfl
  | cons c cs ih =>
    simp [List.takeWhile_cons, h c (by simp),
      ih (fun d hd => h d (by simp [hd]))]

lemma dropWhile_all {p : Char → Bool} {l : Str} (h : ∀ c ∈ l, p c = true) :
    l.dropWhile p = [] := by
  induction l with
  | nil => rfl
  | cons c cs ih =>
    simp [List.dropWhile_cons, h c (by simp),
      ih (fun d hd => h d (by simp [hd]))]

lemma takeWhile_all_append {p : Char → Bool} {xs : Str} {y : Char} {l : Str}
    (hx : ∀ c ∈ xs, p c = true) (hy : p y = false) :
    (xs ++ y :: l).takeWhile p = xs := by
  induction xs with
  | nil => simp [List.takeWhile_cons, hy]
  | cons c cs ih =>
    simp [List.takeWhile_cons, hx c (by simp),
      ih (fun d hd => hx d (by simp [hd]))]

lemma dropWhile_all_append {p : Char → Bool} {xs : Str} {y : Char} {l : Str}
    (hx : ∀ c ∈ xs, p c = true) (hy : p y = false) :
    (xs ++ y :: l).dropWhile p = y :: l := by
  induction xs with
  | nil => simp [List.dropWhile_cons, hy]
  | cons c cs ih =>
    simp [List.dropWhile_cons, hx c (by simp),
      ih (fun d hd => hx d (by simp [hd]))]

lemma closeScan_append (mid suf : Str)
    (h : ∀ c ∈ mid, c ≠ '*' ∧ isDotCh c = true) :
    closeScan (mid ++ '*' :: '*' :: suf) = some (mid, suf) := by
  induction mid with
  | nil => simp [closeScan]
  | cons c cs ih =>
    have hc := h c (by simp)
    have ihh := ih (fun d hd => h d (by simp [hd]))
    simp [closeScan, hc.1, hc.2, ihh]

lemma findClose_append (inner suf : Str) (hne : inner ≠ [])
    (h : ∀ c ∈ inner, c ≠ '*' ∧ isDotCh c = true) :
    findClose (inner ++ '*' :: '*' :: suf) = some (inner, suf) := by
  cases inner with
  | nil => exact absurd rfl hne
  | cons c cs =>
    have hc := h c (by simp)
    have hcs := closeScan_append cs suf (fun d hd => h d (by simp [hd]))
    simp [findClose, hc.2, hcs]

lemma closeScan_length (l : Str) :
    ∀ i r, closeScan l = some (i, r) → r.length + 2 ≤ l.length := by
  induction l with
  | nil => intro i r h; simp [closeScan] at h
  | cons c cs ih =>
    intro i r h
    simp only [closeScan] at h
    by_cases h1 : (c = '*' && cs.head? = some '*') = true
    · rw [if_pos h1] at h
      obtain ⟨h1a, h1b⟩ := Bool.and_eq_true_iff.mp h1
      have h1b' := of_decide_eq_true h1b
      cases cs with
      | nil => exact Option.noConfusion h1b'
      | cons c2 cs2 =>
        simp only [Option.some.injEq, Prod.mk.injEq] at h
        simp [← h.2]
    · rw [if_neg h1] at h
      split at h
      · cases hcs : closeScan cs with
        | none => rw [hcs] at h; simp at h
        | some p =>
          rw [hcs] at h
          simp only [Option.map_some', Option.some.injEq] at h
          have := ih p.1 p.2 (by rw [hcs])
          have hr : r = p.2 := ((Prod.mk.injEq _ _ _ _ ▸ h : _ ∧ _).2).symm
          subst hr
          simp only [List.length_cons]
          omega
      · simp at h

lemma findClose_length (l : Str) :
    ∀ i r, findClose l = some (i, r) → r.length + 2 ≤ l.length := by
  intro i r h
  cases l with
  | nil => simp [findClose] at h
  | cons c cs =>
    simp only [findClose] at h
    split at h
    · cases hcs : closeScan cs with
      | none => rw [hcs] at h; simp at h
      | some p =>
        rw [hcs] at h
        simp only [Option.map_some', Option.some.injEq] at h
        have := closeScan_length cs p.1 p.2 (by rw [hcs])
        have hr : r = p.2 := ((Prod.mk.injEq _ _ _ _ ▸ h : _ ∧ _).2).symm
        subst hr
        simp only [List.length_cons]
        omega
    · simp at h

lemma boldReplF_fuel (f1 : Nat) :
    ∀ (f2 : Nat) (l : Str), l.length < f1 → l.length < f2 →
      boldReplF f1 l = boldReplF f2 l := by
  induction f1 with
  | zero => intro f2 l h1; omega
  | succ f1 ih =>
    intro f2 l h1 h2
    cases f2 with
    | zero => omega
    | succ g =>
      cases l with
      | nil => rfl
      | cons c cs =>
        simp only [boldReplF]
        by_cases hc : (c = '*' && cs.head? = some '*') = true
        · rw [if_pos hc, if_pos hc]
          cases hm : findClose cs.tail with
          | none =>
            simp only [List.length_cons] at h1 h2
            show c :: boldReplF f1 cs = c :: boldReplF g cs
            rw [ih g cs (by omega) (by omega)]
          | some p =>
            obtain ⟨inner, r⟩ := p
            have hb := findClose_length cs.tail inner r hm
            obtain ⟨h1a, h1b⟩ := Bool.and_eq_true_iff.mp hc
            have h1b' := of_decide_eq_true h1b
            cases cs with
            | nil => exact Option.noConfusion h1b'
            | cons c2 cs2 =>
              simp only [List.tail_cons] at hm hb
              simp only [List.length_cons] at h1 h2
              show strongOpen ++ inner ++ strongClose ++ boldReplF f1 r =
                strongOpen ++ inner ++ strongClose ++ boldReplF g r
              rw [ih g r (by omega) (by omega)]
        · rw [if_neg hc, if_neg hc]
          simp only [List.length_cons] at h1 h2
          rw [ih g cs (by omega) (by omega)]

lemma boldReplF_no_star (f : Nat) :
    ∀ (l : Str), l.length < f → '*' ∉ l → boldReplF f l = l := by
  induction f with
  | zero => intro l h1; omega
  | succ f ih =>
    intro l h1 hs
    cases l with
    | nil => rfl
    | cons c cs =>
      have hc : ¬(c = '*') := fun he => hs (by simp [he])
      simp only [boldReplF]
      rw [if_neg (by simp [hc])]
      simp only [List.length_cons] at h1
      rw [ih cs (by omega) (fun hm => hs (by simp [hm]))]

lemma boldRepl_step (inner suf : Str) (hne : inner ≠ [])
    (h : ∀ c ∈ inner, c ≠ '*' ∧ isDotCh c = true) :
    boldRepl ('*' :: '*' :: (inner ++ '*' :: '*' :: suf)) =
      strongOpen ++ inner ++ strongClose ++ boldRepl suf := by
  unfold boldRepl
  have hfc := findClose_append inner suf hne h
  simp only [List.length_cons, boldReplF, List.head?_cons, List.tail_cons]
  rw [if_pos (by simp), hfc]
  show strongOpen ++ inner ++ strongClose ++
      boldReplF ((inner ++ '*' :: '*' :: suf).length + 2) suf =
    strongOpen ++ inner ++ strongClose ++ boldRepl suf
  rw [boldReplF_fuel _ (suf.length + 1) suf
    (by simp [List.length_append]; omega) (by omega)]
  rfl

lemma boldRepl_no_star (l : Str) (hs : '*' ∉ l) : boldRepl l = l :=
  boldReplF_no_star (l.length + 1) l (by omega) hs

lemma idReplF_fuel (f1 : Nat) :
    ∀ (f2 : Nat) (l : Str), l.length < f1 → l.length < f2 →
      idReplF f1 l = idReplF f2 l := by
  induction f1 with
  | zero => intro f2 l h1; omega
  | succ f1 ih =>
    intro f2 l h1 h2
    cases f2 with
    | zero => omega
    | succ g =>
      cases l with
      | nil => rfl
      | cons c cs =>
        simp only [List.length_cons] at h1 h2
        simp only [idReplF]
        by_cases hu : isUpperCh c = true
        · rw [if_pos hu, if_pos hu]
          split
          · next r2 heq =>
            rw [List.dropWhile_cons, if_pos hu] at heq
            have hlen : ('-' :: r2).length ≤ cs.length := by
              rw [← heq]
              exact (List.dropWhile_sublist _).length_le
            simp only [List.length_cons] at hlen
            have hlen2 : (r2.dropWhile isDigitCh).length ≤ r2.length :=
              (List.dropWhile_sublist _).length_le
            split
            · rw [ih g cs (by omega) (by omega)]
            · rw [ih g (r2.dropWhile isDigitCh) (by omega) (by omega)]
          · rw [ih g cs (by omega) (by omega)]
        · rw [if_neg hu, if_neg hu, ih g cs (by omega) (by omega)]

lemma idReplF_no_upper (f : Nat) :
    ∀ (l : Str), l.length < f → (∀ c ∈ l, isUpperCh c = false) →
      idReplF f l = l := by
  induction f with
  | zero => intro l h1; omega
  | succ f ih =>
    intro l h1 hup
    cases l with
    | nil => rfl
    | cons c cs =>
      simp only [List.length_cons] at h1
      simp only [idReplF]
      rw [if_neg (by simp [hup c (by simp)])]
      rw [ih cs (by omega) (fun d hd => hup d (by simp [hd]))]

lemma idRepl_no_upper (l : Str) (h : ∀ c ∈ l, isUpperCh c = false) :
    idRepl l = l :=
  idReplF_no_upper (l.length + 1) l (by omega) h

lemma takeWhile_digits_run (ds suf : Str) (hd : ∀ c ∈ ds, isDigitCh c = true)
    (hsuf : ∀ d, suf.head? = some d → isDigitCh d = false) :
    (ds ++ suf).takeWhile isDigitCh = ds := by
  cases suf with
  | nil => rw [List.append_nil]; exact takeWhile_all hd
  | cons y l => exact takeWhile_all_append hd (hsuf y rfl)

lemma dropWhile_digits_run (ds suf : Str) (hd : ∀ c ∈ ds, isDigitCh c = true)
    (hsuf : ∀ d, suf.head? = some d → isDigitCh d = false) :
    (ds ++ suf).dropWhile isDigitCh = suf := by
  cases suf with
  | nil => rw [List.append_nil]; exact dropWhile_all hd
  | cons y l => exact dropWhile_all_append hd (hsuf y rfl)

lemma idRepl_step (us ds suf : Str) (hus : us ≠ [])
    (hu : ∀ c ∈ us, isUpperCh c = true) (hds : ds ≠ [])
    (hd : ∀ c ∈ ds, isDigitCh c = true)
    (hsuf : ∀ d, suf.head? = some d → isDigitCh d = false) :
    idRepl (us ++ '-' :: (ds ++ suf)) =
      spanOpenKey ++ us ++ '-' :: ds ++ spanCloseKey ++ idRepl suf := by
  cases us with
  | nil => exact absurd rfl hus
  | cons u us' =>
    have hdw : (u :: (us' ++ '-' :: (ds ++ suf))).dropWhile isUpperCh =
        '-' :: (ds ++ suf) := by
      rw [show u :: (us' ++ '-' :: (ds ++ suf)) =
        (u :: us') ++ '-' :: (ds ++ suf) from rfl]
      exact dropWhile_all_append hu (by decide)
    have htw : (u :: (us' ++ '-' :: (ds ++ suf))).takeWhile isUpperCh =
        u :: us' := by
      rw [show u :: (us' ++ '-' :: (ds ++ suf)) =
        (u :: us') ++ '-' :: (ds ++ suf) from rfl]
      exact takeWhile_all_append hu (by decide)
    unfold idRepl
    simp only [List.cons_append, idReplF, List.append_eq]
    rw [if_pos (hu u (by simp)), hdw]
    show (if (ds ++ suf).takeWhile isDigitCh = ([] : Str) then
        u :: idReplF ((u :: (us' ++ '-' :: (ds ++ suf))).length)
          (us' ++ '-' :: (ds ++ suf))
      else
        spanOpenKey ++
          (u :: (us' ++ '-' :: (ds ++ suf))).takeWhile isUpperCh ++
          '-' :: (ds ++ suf).takeWhile isDigitCh ++ spanCloseKey ++
          idReplF ((u :: (us' ++ '-' :: (ds ++ suf))).length)
            ((ds ++ suf).dropWhile isDigitCh)) =
      spanOpenKey ++ (u :: us') ++ '-' :: ds ++ spanCloseKey ++ idRepl suf
    rw [takeWhile_digits_run ds suf hd hsuf,
      dropWhile_digits_run ds suf hd hsuf, if_neg hds, htw]
    rw [idReplF_fuel _ (suf.length + 1) suf
      (by simp [List.length_append]; omega) (by omega)]
    simp [idRepl]

/-- C8 counterexample: on the input `ABC-123`, `formatText` produces the
highlighted `<span class="issue-key">` form; the output contains no
anchor tag and no `href` attribute, so the record-ID token is not
hyperlinked to any URL. -/
theorem claim8_counterexample :
    formatText "ABC-123".toList =
      "<span class=\"issue-key\">ABC-123</span>".toList ∧
    ¬ ("href".toList <:+: formatText "ABC-123".toList) ∧
    ¬ ("<a".toList <:+: formatText "ABC-123".toList) := by
  decide

/-- C8 (amended): `formatText` rewrites every markdown bold span into an
HTML `<strong>` element and wraps every record-ID-shaped token
(uppercase letters, hyphen, digits) in a highlighted
`<span class="issue-key">` element — not a hyperlink — while all other
characters pass through unchanged. -/
theorem claim8_format_text_amended :
    (∀ inner suf : Str, inner ≠ [] →
      (∀ c ∈ inner, c ≠ '*' ∧ isDotCh c = true) →
      boldRepl ('*' :: '*' :: (inner ++ '*' :: '*' :: suf)) =
        strongOpen ++ inner ++ strongClose ++ boldRepl suf) ∧
    (∀ us ds suf : Str, us ≠ [] → (∀ c ∈ us, isUpperCh c = true) →
      ds ≠ [] → (∀ c ∈ ds, isDigitCh c = true) →
      (∀ d, suf.head? = some d → isDigitCh d = false) →
      idRepl (us ++ '-' :: (ds ++ suf)) =
        spanOpenKey ++ us ++ '-' :: ds ++ spanCloseKey ++ idRepl suf) ∧
    (∀ l : Str, (∀ c ∈ l, c ≠ '*' ∧ isUpperCh c = false) →
      formatText l = l) ∧
    formatText "**ABC-123** done".toList =
      ("<strong><span class=\"issue-key\">ABC-123</span></strong> done").toList := by
  refine ⟨boldRepl_step, idRepl_step, ?_, by decide⟩
  intro l h
  unfold formatText
  rw [boldRepl_no_star l (fun hm => ((h _ hm).1 rfl)),
    idRepl_no_upper l (fun c hc => (h c hc).2)]

theorem claim8_witness :
    boldRepl ('*' :: '*' :: ("hi".toList ++ '*' :: '*' :: " x".toList)) =
      strongOpen ++ "hi".toList ++ strongClose ++ boldRepl " x".toList :=
  claim8_format_text_amended.1 "hi".toList " x".toList (by decide) (by decide)

lemma strIndexOf_cons_self (a : Str) (l : List Str) :
    List.indexOf a (a :: l) = 0 := by
  simp [List.indexOf_cons]

lemma strIndexOf_cons_ne (a b : Str) (l : List Str) (h : b ≠ a) :
    List.indexOf a (b :: l) = List.indexOf a l + 1 := by
  simp [List.indexOf_cons, beq_false_of_ne h]

lemma strIndexOf_append_of_mem (a : Str) (l1 l2 : List Str) (h : a ∈ l1) :
    List.indexOf a (l1 ++ l2) = List.indexOf a l1 := by
  induction l1 with
  | nil => simp at h
  | cons c cs ih =>
    by_cases hc : c = a
    · subst hc
      rw [List.cons_append, strIndexOf_cons_self, strIndexOf_cons_self]
    · have hm : a ∈ cs := by
        rcases List.mem_cons.mp h with he | he
        · exact absurd he.symm hc
        · exact he
      rw [List.cons_append, strIndexOf_cons_ne _ _ _ hc,
        strIndexOf_cons_ne _ _ _ hc, ih hm]

lemma strIndexOf_lt_length (a : Str) (l : List Str) (h : a ∈ l) :
    List.indexOf a l < l.length := by
  induction l with
  | nil => simp at h
  | cons c cs ih =>
    by_cases hc : c = a
    · subst hc
      rw [strIndexOf_cons_self]
      simp
    · have hm : a ∈ cs := by
        rcases List.mem_cons.mp h with he | he
        · exact absurd he.symm hc
        · exact he
      rw [strIndexOf_cons_ne _ _ _ hc, List.length_cons]
      exact Nat.succ_lt_succ (ih hm)

lemma strIndexOf_append_self (l : Str) (processed : List Str)
    (h : l ∉ processed) :
    List.indexOf l (processed ++ [l]) = processed.length := by
  induction processed with
  | nil => simp [strIndexOf_cons_self]
  | cons c ps ih =>
    have hc : c ≠ l := fun he => h (by simp [he])
    rw [List.cons_append, strIndexOf_cons_ne _ _ _ hc,
      ih (fun hm => h (by simp [hm])), List.length_cons]

lemma pushGroupAux_map_fst (acc : List (Str × List SimplifiedIssue)) (k : Str)
    (i : SimplifiedIssue) :
    (pushGroupAux acc k i).map Prod.fst =
      if k ∈ acc.map Prod.fst then acc.map Prod.fst
      else acc.map Prod.fst ++ [k] := by
  induction acc with
  | nil => simp [pushGroupAux]
  | cons p rest ih =>
    obtain ⟨k', g⟩ := p
    by_cases h : k' = k
    · subst h
      simp [pushGroupAux]
    · by_cases hm : k ∈ rest.map Prod.fst <;>
        simp [pushGroupAux, h, hm, Ne.symm h] at ih ⊢ <;> exact ih

lemma pushGroupAux_flatten_perm (acc : List (Str × List SimplifiedIssue))
    (k : Str) (i : SimplifiedIssue) :
    ((pushGroupAux acc k i).map Prod.snd).flatten.Perm
      ((acc.map Prod.snd).flatten ++ [i]) := by
  induction acc with
  | nil => simp [pushGroupAux]
  | cons p rest ih =>
    obtain ⟨k', g⟩ := p
    by_cases h : k' = k
    · subst h
      simp only [pushGroupAux, if_pos rfl, List.map_cons, List.flatten_cons,
        eq_self_iff_true, if_true]
      rw [List.append_assoc, List.append_assoc]
      exact (@List.perm_append_comm _ [i] _).append_left g
    · simp only [pushGroupAux, if_neg h, List.map_cons, List.flatten_cons]
      rw [List.append_assoc]
      exact ih.append_left g

lemma pushGroupAux_filter_inv (acc : List (Str × List SimplifiedIssue))
    (pre : List SimplifiedIssue) (f : SimplifiedIssue → FieldVal)
    (i : SimplifiedIssue)
    (hnodup : (acc.map Prod.fst).Nodup)
    (hfil : ∀ p ∈ acc, p.2 = pre.filter (fun j => groupKeyOf f j = p.1))
    (hnew : groupKeyOf f i ∉ acc.map Prod.fst →
      pre.filter (fun j => groupKeyOf f j = groupKeyOf f i) = []) :
    ∀ p ∈ pushGroupAux acc (groupKeyOf f i) i,
      p.2 = (pre ++ [i]).filter (fun j => groupKeyOf f j = p.1) := by
  induction acc generalizing pre with
  | nil =>
    intro p hp
    simp [pushGroupAux] at hp
    subst hp
    simp [List.filter_append, hnew (by simp)]
  | cons q rest ih =>
    obtain ⟨k', g⟩ := q
    by_cases h : k' = groupKeyOf f i
    · intro p hp
      rw [show pushGroupAux ((k', g) :: rest) (groupKeyOf f i) i =
        (k', g ++ [i]) :: rest by simp [pushGroupAux, h]] at hp
      rcases List.mem_cons.mp hp with hp | hp
      · subst hp
        simp only [List.filter_append]
        rw [← hfil (k', g) (by simp)]
        simp [h]
      · have hfp := hfil p (by simp [hp])
        have hkne : p.1 ≠ k' := by
          intro he
          simp only [List.map_cons, List.nodup_cons] at hnodup
          exact hnodup.1 (he ▸ List.mem_map_of_mem Prod.fst hp)
        rw [hfp, List.filter_append]
        have : ¬(groupKeyOf f i = p.1) := fun he => hkne (he ▸ h.symm)
        simp [this]
    · intro p hp
      rw [show pushGroupAux ((k', g) :: rest) (groupKeyOf f i) i =
        (k', g) :: pushGroupAux rest (groupKeyOf f i) i by
          simp [pushGroupAux, h]] at hp
      rcases List.mem_cons.mp hp with hp | hp
      · subst hp
        rw [hfil (k', g) (by simp), List.filter_append]
        have hne : ¬(groupKeyOf f i = k') := fun he => h he.symm
        simp [hne]
      · simp only [List.map_cons, List.nodup_cons] at hnodup
        refine ih pre hnodup.2 (fun q hq => hfil q (by simp [hq])) ?_ p hp
        intro hni
        refine hnew ?_
        simp only [List.map_cons, List.mem_cons]
        rintro (he | he)
        · exact h he.symm
        · exact hni he

lemma groupFold_inv (f : SimplifiedIssue → FieldVal)
    (l : List SimplifiedIssue) (acc : List (Str × List SimplifiedIssue))
    (pre : List SimplifiedIssue)
    (hnodup : (acc.map Prod.fst).Nodup)
    (hfil : ∀ p ∈ acc, p.2 = pre.filter (fun j => groupKeyOf f j = p.1))
    (hmem : ∀ j ∈ pre, groupKeyOf f j ∈ acc.map Prod.fst) :
    ((l.foldl (fun a i => pushGroupAux a (groupKeyOf f i) i) acc).map
      Prod.fst).Nodup ∧
    (∀ p ∈ l.foldl (fun a i => pushGroupAux a (groupKeyOf f i) i) acc,
      p.2 = (pre ++ l).filter (fun j => groupKeyOf f j = p.1)) ∧
    (∀ j ∈ pre ++ l, groupKeyOf f j ∈
      (l.foldl (fun a i => pushGroupAux a (groupKeyOf f i) i) acc).map
        Prod.fst) ∧
    ((l.foldl (fun a i => pushGroupAux a (groupKeyOf f i) i) acc).map
      Prod.snd).flatten.Perm ((acc.map Prod.snd).flatten ++ l) := by
  induction l generalizing acc pre with
  | nil =>
    refine ⟨hnodup, by simpa using hfil, by simpa using hmem, by simp⟩
  | cons i l' ih =>
    have hnodup' : ((pushGroupAux acc (groupKeyOf f i) i).map Prod.fst).Nodup := by
      rw [pushGroupAux_map_fst]
      split
      · exact hnodup
      · next hni => simp [List.nodup_append, hnodup, hni]
    have hfil' : ∀ p ∈ pushGroupAux acc (groupKeyOf f i) i,
        p.2 = (pre ++ [i]).filter (fun j => groupKeyOf f j = p.1) := by
      refine pushGroupAux_filter_inv acc pre f i hnodup hfil ?_
      intro hni
      rw [List.filter_eq_nil_iff]
      intro j hj hkey
      simp at hkey
      exact hni (hkey ▸ hmem j hj)
    have hmem' : ∀ j ∈ pre ++ [i], groupKeyOf f j ∈
        (pushGroupAux acc (groupKeyOf f i) i).map Prod.fst := by
      intro j hj
      rw [pushGroupAux_map_fst]
      rcases List.mem_append.mp hj with hj | hj
      · split <;> simp [hmem j hj]
      · simp at hj
        subst hj
        split
        · next hin => exact hin
        · simp
    obtain ⟨r1, r2, r3, r4⟩ :=
      ih (pushGroupAux acc (groupKeyOf f i) i) (pre ++ [i]) hnodup' hfil' hmem'
    refine ⟨r1, ?_, ?_, ?_⟩
    · intro p hp
      have := r2 p hp
      rwa [List.append_assoc, List.singleton_append] at this
    · intro j hj
      refine r3 j ?_
      rw [List.append_assoc, List.singleton_append]
      exact hj
    · refine r4.trans ?_
      refine ((pushGroupAux_flatten_perm acc (groupKeyOf f i) i).append_right
        l').trans ?_
      rw [List.append_assoc, List.singleton_append]

lemma pushGroup_ok (acc : List (Str × List SimplifiedIssue)) (k : Str)
    (i : SimplifiedIssue) (h : k ∉ protoPropNames) :
    pushGroup acc k i = Except.ok (pushGroupAux acc k i) := by
  induction acc with
  | nil => simp [pushGroup, pushGroupAux, h]
  | cons p rest ih =>
    obtain ⟨k', g⟩ := p
    by_cases he : k' = k
    · simp [pushGroup, pushGroupAux, he]
    · simp [pushGroup, pushGroupAux, he, ih, Except.map]

lemma groupFold_ok (f : SimplifiedIssue → FieldVal)
    (issues : List SimplifiedIssue) :
    ∀ acc, (∀ i ∈ issues, groupKeyOf f i ∉ protoPropNames) →
      groupFold f issues acc =
        Except.ok
          (issues.foldl (fun a i => pushGroupAux a (groupKeyOf f i) i) acc) := by
  induction issues with
  | nil => intro acc h; rfl
  | cons i rest ih =>
    intro acc h
    simp only [groupFold, pushGroup_ok acc (groupKeyOf f i) i (h i (by simp)),
      List.foldl_cons]
    exact ih _ (fun j hj => h j (by simp [hj]))

/-- C10 counterexample: at an issue whose product area is `constructor`,
the computed key collides with the inherited `Object.prototype` member,
`!grouped[key]` is false, and `grouped[key].push` throws a TypeError —
the program crashes instead of placing the issue in a group, refuting
the claim for this input. -/
theorem claim10_counterexample :
    groupIssuesByField
      [⟨"k".toList, [], [], [], [], [], 0, 0, [], [], [], [],
        some "constructor".toList, none⟩] productAreaField =
      Except.error pushTypeErrorMsg := rfl

/-- C10 (amended): for every list of issues and field accessor whose
computed keys (the field value when a non-empty string, `Uncategorized`
otherwise) avoid the inherited `Object.prototype` property names,
`groupIssuesByField` returns normally and partitions its input — group
keys are distinct, each group is exactly the input filtered by its key
(hence in input order), every issue's key has a group, and the
concatenation of all groups is a permutation of the input. -/
theorem claim10_grouping_partition (f : SimplifiedIssue → FieldVal)
    (issues : List SimplifiedIssue)
    (hkeys : ∀ i ∈ issues, groupKeyOf f i ∉ protoPropNames) :
    ∃ g, groupIssuesByField issues f = Except.ok g ∧
      (g.map Prod.fst).Nodup ∧
      (∀ p ∈ g, p.2 = issues.filter (fun j => groupKeyOf f j = p.1)) ∧
      (∀ j ∈ issues, groupKeyOf f j ∈ g.map Prod.fst) ∧
      (g.map Prod.snd).flatten.Perm issues := by
  obtain ⟨h1, h2, h3, h4⟩ :=
    groupFold_inv f issues [] [] (by simp) (by simp) (by simp)
  refine ⟨issues.foldl (fun a i => pushGroupAux a (groupKeyOf f i) i) [],
    ?_, h1, by simpa using h2, by simpa using h3, by simpa using h4⟩
  exact groupFold_ok f issues [] hkeys

theorem claim10_witness :
    ∃ g, groupIssuesByField
        [⟨"k".toList, [], [], [], [], [], 0, 0, [], [], [], [],
          some "Billing".toList, none⟩] productAreaField =
        Except.ok g ∧
      (g.map Prod.fst).Nodup ∧
      (∀ p ∈ g, p.2 =
        [(⟨"k".toList, [], [], [], [], [], 0, 0, [], [], [], [],
          some "Billing".toList, none⟩ : SimplifiedIssue)].filter
          (fun j => groupKeyOf productAreaField j = p.1)) ∧
      (∀ j ∈ [(⟨"k".toList, [], [], [], [], [], 0, 0, [], [], [], [],
          some "Billing".toList, none⟩ : SimplifiedIssue)],
        groupKeyOf productAreaField j ∈ g.map Prod.fst) ∧
      (g.map Prod.snd).flatten.Perm
        [(⟨"k".toList, [], [], [], [], [], 0, 0, [], [], [], [],
          some "Billing".toList, none⟩ : SimplifiedIssue)] :=
  claim10_grouping_partition productAreaField
    [⟨"k".toList, [], [], [], [], [], 0, 0, [], [], [], [],
      some "Billing".toList, none⟩] (by decide)

lemma bumpLabel_map_fst (acc : List (Str × JsCount)) (l : Str)
    (hl : l ∉ protoPropNames) :
    (bumpLabel acc l).map Prod.fst =
      if l ∈ acc.map Prod.fst then acc.map Prod.fst
      else acc.map Prod.fst ++ [l] := by
  induction acc with
  | nil =>
    have hp : l ≠ "__proto__".toList := fun he => hl (by rw [he]; decide)
    simp only [bumpLabel]
    rw [if_neg hp, if_neg hl]
    simp
  | cons p rest ih =>
    obtain ⟨k', v⟩ := p
    by_cases h : k' = l
    · subst h
      simp [bumpLabel]
    · by_cases hm : l ∈ rest.map Prod.fst <;>
        simp [bumpLabel, h, hm, Ne.symm h] at ih ⊢ <;> exact ih

lemma bumpLabel_count_inv (acc : List (Str × JsCount)) (processed : List Str)
    (l : Str) (hl : l ∉ protoPropNames)
    (hnodup : (acc.map Prod.fst).Nodup)
    (hcount : ∀ p ∈ acc, p.2 = JsCount.num (processed.count p.1))
    (hnew : l ∉ acc.map Prod.fst → processed.count l = 0) :
    ∀ p ∈ bumpLabel acc l,
      p.2 = JsCount.num ((processed ++ [l]).count p.1) := by
  induction acc generalizing processed with
  | nil =>
    intro p hp
    have hp2 : l ≠ "__proto__".toList := fun he => hl (by rw [he]; decide)
    rw [show bumpLabel [] l = [(l, JsCount.num 1)] by
      simp only [bumpLabel]
      rw [if_neg hp2, if_neg hl]] at hp
    simp at hp
    subst hp
    have hz : processed.count l = 0 := hnew (by simp)
    have hone : List.count l [l] = 1 := by simp
    show JsCount.num 1 = JsCount.num ((processed ++ [l]).count l)
    rw [List.count_append, hz, hone]
  | cons q rest ih =>
    obtain ⟨k', v⟩ := q
    by_cases h : k' = l
    · subst h
      intro p hp
      rw [show bumpLabel ((k', v) :: rest) k' = (k', bumpVal v) :: rest by
        simp [bumpLabel]] at hp
      rcases List.mem_cons.mp hp with hp | hp
      · subst hp
        have hc2 : v = JsCount.num (processed.count k') :=
          hcount (k', v) (by simp)
        subst hc2
        have hone : List.count k' [k'] = 1 := by simp
        show JsCount.num (processed.count k' + 1) =
          JsCount.num ((processed ++ [k']).count k')
        rw [List.count_append, hone]
      · have hfp : p.2 = JsCount.num (processed.count p.1) :=
          hcount p (by simp [hp])
        have hkne : p.1 ≠ k' := by
          intro he
          simp only [List.map_cons, List.nodup_cons] at hnodup
          exact hnodup.1 (he ▸ List.mem_map_of_mem Prod.fst hp)
        have hz : List.count p.1 [k'] = 0 :=
          List.count_eq_zero.mpr (by simp [hkne])
        rw [hfp, List.count_append, hz]
        rfl
    · intro p hp
      rw [show bumpLabel ((k', v) :: rest) l = (k', v) :: bumpLabel rest l by
        simp [bumpLabel, h]] at hp
      rcases List.mem_cons.mp hp with hp | hp
      · subst hp
        have hc2 : v = JsCount.num (processed.count k') :=
          hcount (k', v) (by simp)
        have hz : List.count k' [l] = 0 :=
          List.count_eq_zero.mpr (by simp [h])
        rw [hc2, List.count_append, hz]
        rfl
      · simp only [List.map_cons, List.nodup_cons] at hnodup
        refine ih processed hnodup.2 (fun q hq => hcount q (by simp [hq]))
          ?_ p hp
        intro hni
        refine hnew ?_
        simp only [List.map_cons, List.mem_cons]
        rintro (he | he)
        · exact h he.symm
        · exact hni he

lemma foldl_bumpLabel_inv (ls : List Str) :
    ∀ (acc : List (Str × JsCount)) (processed : List Str),
      (∀ x ∈ ls, x ∉ protoPropNames) →
      (acc.map Prod.fst).Nodup →
      (∀ p ∈ acc, p.2 = JsCount.num (processed.count p.1)) →
      (∀ k, k ∈ acc.map Prod.fst ↔ k ∈ processed) →
      List.Pairwise (fun a b => processed.indexOf a < processed.indexOf b)
        (acc.map Prod.fst) →
      ((ls.foldl bumpLabel acc).map Prod.fst).Nodup ∧
      (∀ p ∈ ls.foldl bumpLabel acc,
        p.2 = JsCount.num ((processed ++ ls).count p.1)) ∧
      (∀ k, k ∈ (ls.foldl bumpLabel acc).map Prod.fst ↔
        k ∈ processed ++ ls) ∧
      List.Pairwise (fun a b =>
        (processed ++ ls).indexOf a < (processed ++ ls).indexOf b)
        ((ls.foldl bumpLabel acc).map Prod.fst) := by
  induction ls with
  | nil =>
    intro acc processed _ h1 h2 h3 h4
    simp only [List.foldl_nil, List.append_nil]
    exact ⟨h1, h2, h3, h4⟩
  | cons l ls' ih =>
    intro acc processed hcl h1 h2 h3 h4
    have hlp : l ∉ protoPropNames := hcl l (by simp)
    have hmemk : ∀ k ∈ acc.map Prod.fst, k ∈ processed :=
      fun k hk => (h3 k).mp hk
    have h1' : ((bumpLabel acc l).map Prod.fst).Nodup := by
      rw [bumpLabel_map_fst acc l hlp]
      split
      · exact h1
      · next hni => simp [List.nodup_append, h1, hni]
    have h2' : ∀ p ∈ bumpLabel acc l,
        p.2 = JsCount.num ((processed ++ [l]).count p.1) := by
      refine bumpLabel_count_inv acc processed l hlp h1 h2 ?_
      intro hni
      exact List.count_eq_zero.mpr (fun hm => hni ((h3 l).mpr hm))
    have h3' : ∀ k, k ∈ (bumpLabel acc l).map Prod.fst ↔
        k ∈ processed ++ [l] := by
      intro k
      rw [bumpLabel_map_fst acc l hlp]
      by_cases hin : l ∈ acc.map Prod.fst
      · rw [if_pos hin, h3 k, List.mem_append, List.mem_singleton]
        constructor
        · exact Or.inl
        · rintro (hk | hk)
          · exact hk
          · subst hk
            exact (h3 k).mp hin
      · rw [if_neg hin]
        simp [h3 k]
    have h4' : List.Pairwise (fun a b =>
        (processed ++ [l]).indexOf a < (processed ++ [l]).indexOf b)
        ((bumpLabel acc l).map Prod.fst) := by
      rw [bumpLabel_map_fst acc l hlp]
      have htr : ∀ a b, a ∈ acc.map Prod.fst → b ∈ acc.map Prod.fst →
          processed.indexOf a < processed.indexOf b →
          (processed ++ [l]).indexOf a < (processed ++ [l]).indexOf b := by
        intro a b ha hb hr
        rwa [strIndexOf_append_of_mem a processed [l] (hmemk a ha),
          strIndexOf_append_of_mem b processed [l] (hmemk b hb)]
      split
      · exact h4.imp_of_mem (fun ha hb hr => htr _ _ ha hb hr)
      · next hni =>
        have hlnp : l ∉ processed := fun hm => hni ((h3 l).mpr hm)
        rw [List.pairwise_append]
        refine ⟨h4.imp_of_mem (fun ha hb hr => htr _ _ ha hb hr),
          by simp, ?_⟩
        intro a ha b hb
        rw [List.mem_singleton] at hb
        subst hb
        rw [strIndexOf_append_of_mem a processed [b] (hmemk a ha),
          strIndexOf_append_self b processed hlnp]
        exact strIndexOf_lt_length a processed (hmemk a ha)
    have hres := ih (bumpLabel acc l) (processed ++ [l])
      (fun x hx => hcl x (by simp [hx])) h1' h2' h3' h4'
    rw [List.append_assoc, List.singleton_append] at hres
    exact hres

lemma entriesOrder_eq_self (acc : List (Str × JsCount))
    (h : ∀ p ∈ acc, isArrayIndexKey p.1 = false) :
    entriesOrder acc = acc := by
  unfold entriesOrder
  rw [show acc.filter (fun p => isArrayIndexKey p.1) = [] from
    List.filter_eq_nil_iff.mpr (by intro a ha; simp [h a ha])]
  rw [show acc.filter (fun p => !isArrayIndexKey p.1) = acc from
    List.filter_eq_self.mpr (by intro a ha; simp [h a ha])]
  rfl

lemma stable_orderedInsert {α : Type} (r : α → α → Prop) [DecidableRel r]
    (P : α → α → Prop) (a : α) (l : List α)
    (htotal : ∀ b ∈ l, r a b ∨ r b a)
    (htrans : ∀ b c, b ∈ l → c ∈ l → r a b → r b c → r a c)
    (hl : l.Pairwise (fun x y => r x y ∧ (r y x → P x y)))
    (ha : ∀ b ∈ l, P a b) :
    (List.orderedInsert r a l).Pairwise
      (fun x y => r x y ∧ (r y x → P x y)) := by
  induction l with
  | nil => simp
  | cons b t ih =>
    simp only [List.orderedInsert]
    split
    · next hab =>
      rw [List.pairwise_cons]
      refine ⟨?_, hl⟩
      intro c hc
      refine ⟨?_, fun _ => ha c hc⟩
      rcases List.mem_cons.mp hc with he | he
      · rw [he]
        exact hab
      · exact htrans b c (by simp) (by simp [he]) hab
          ((List.pairwise_cons.mp hl).1 c he).1
    · next hnab =>
      have hba := (htotal b (by simp)).resolve_left hnab
      obtain ⟨hbt, htl⟩ := List.pairwise_cons.mp hl
      rw [List.pairwise_cons]
      constructor
      · intro c hc
        rcases (List.mem_orderedInsert r).mp hc with he | he
        · rw [he]
          exact ⟨hba, fun hab => absurd hab hnab⟩
        · exact hbt c he
      · refine ih (fun d hd => htotal d (by simp [hd]))
          (fun d e hd he2 => htrans d e (by simp [hd]) (by simp [he2]))
          htl (fun d hd => ha d (by simp [hd]))

lemma stable_insertionSort {α : Type} (r : α → α → Prop) [DecidableRel r]
    (P : α → α → Prop) (l : List α)
    (htotal : ∀ a b, a ∈ l → b ∈ l → r a b ∨ r b a)
    (htrans : ∀ a b c, a ∈ l → b ∈ l → c ∈ l → r a b → r b c → r a c)
    (hp : l.Pairwise P) :
    (List.insertionSort r l).Pairwise
      (fun x y => r x y ∧ (r y x → P x y)) := by
  induction l with
  | nil => simp
  | cons a t ih =>
    obtain ⟨hat, htl⟩ := List.pairwise_cons.mp hp
    rw [List.insertionSort]
    have hmem : ∀ b ∈ List.insertionSort r t, b ∈ t :=
      fun b hb => ((List.perm_insertionSort r t).mem_iff).mp hb
    refine stable_orderedInsert r P a _
      (fun b hb => htotal a b (by simp) (by simp [hmem b hb]))
      (fun b c hb hc => htrans a b c (by simp) (by simp [hmem b hb])
        (by simp [hmem c hc]))
      (ih (fun x y hx hy => htotal x y (by simp [hx]) (by simp [hy]))
        (fun x y z hx hy hz => htrans x y z (by simp [hx]) (by simp [hy])
          (by simp [hz]))
        htl)
      (fun b hb => hat b (hmem b hb))

lemma countDescOrder_num (a b : Str × JsCount) (x y : Nat)
    (ha : a.2 = JsCount.num x) (hb : b.2 = JsCount.num y) :
    countDescOrder a b ↔ y ≤ x := by
  unfold countDescOrder
  rw [ha, hb]

lemma labelCounts_spec (issues : List SimplifiedIssue)
    (hl : ∀ x ∈ (issues.map (fun i => i.labels)).flatten,
      x ∉ protoPropNames) :
    ((labelCounts issues).map Prod.fst).Nodup ∧
    (∀ p ∈ labelCounts issues,
      p.2 = JsCount.num
        (((issues.map (fun i => i.labels)).flatten).count p.1)) ∧
    (∀ k, k ∈ (labelCounts issues).map Prod.fst ↔
      k ∈ (issues.map (fun i => i.labels)).flatten) ∧
    List.Pairwise (fun a b =>
      ((issues.map (fun i => i.labels)).flatten).indexOf a <
        ((issues.map (fun i => i.labels)).flatten).indexOf b)
      ((labelCounts issues).map Prod.fst) := by
  have h := foldl_bumpLabel_inv ((issues.map (fun i => i.labels)).flatten)
    [] [] hl (by simp) (by simp) (by simp) (by simp)
  simpa [labelCounts] using h

/-- C7 counterexample: with tags `beta` then `2024` (equal frequency),
`Object.entries` hoists the array-index-like key `2024` ahead of
`beta`, so `commonLabels` is `[2024, beta]` even though `beta` appears
first in the input — refuting the first-appearance tie-break of the
claim at this input. -/
theorem claim7_counterexample :
    (calculateMetrics 0
      [⟨"k".toList, [], [], [], [], [], 0, 0, [], [],
        ["beta".toList, "2024".toList], [], none, none⟩]).commonLabels =
      ["2024".toList, "beta".toList] ∧
    ((List.map (fun i => i.labels)
      [(⟨"k".toList, [], [], [], [], [], 0, 0, [], [],
        ["beta".toList, "2024".toList], [], none,
        none⟩ : SimplifiedIssue)]).flatten).count "beta".toList =
      ((List.map (fun i => i.labels)
        [(⟨"k".toList, [], [], [], [], [], 0, 0, [], [],
          ["beta".toList, "2024".toList], [], none,
          none⟩ : SimplifiedIssue)]).flatten).count "2024".toList ∧
    List.indexOf "beta".toList
        ((List.map (fun i => i.labels)
          [(⟨"k".toList, [], [], [], [], [], 0, 0, [], [],
            ["beta".toList, "2024".toList], [], none,
            none⟩ : SimplifiedIssue)]).flatten) <
      List.indexOf "2024".toList
        ((List.map (fun i => i.labels)
          [(⟨"k".toList, [], [], [], [], [], 0, 0, [], [],
            ["beta".toList, "2024".toList], [], none,
            none⟩ : SimplifiedIssue)]).flatten) := by
  decide

/-- C7 (amended): for every issue list whose labels are neither
array-index-like keys nor `Object.prototype` property names, the
`commonLabels` metric lists at most five distinct labels of the input,
in descending frequency order with ties broken by first appearance, and
every omitted label loses to every listed one under that order; on tags
`[a,a,b,c,a,b]` it yields `[a, b, c]`. -/
theorem claim7_tag_ranking (now : Int) (issues : List SimplifiedIssue)
    (hnp : ∀ x ∈ (issues.map (fun i => i.labels)).flatten,
      x ∉ protoPropNames)
    (hnix : ∀ x ∈ (issues.map (fun i => i.labels)).flatten,
      isArrayIndexKey x = false) :
    ((calculateMetrics now issues).commonLabels.length ≤ 5 ∧
    (calculateMetrics now issues).commonLabels.Nodup ∧
    (∀ l ∈ (calculateMetrics now issues).commonLabels,
      l ∈ (issues.map (fun i => i.labels)).flatten) ∧
    List.Pairwise (fun a b =>
      ((issues.map (fun i => i.labels)).flatten).count b <
          ((issues.map (fun i => i.labels)).flatten).count a ∨
        (((issues.map (fun i => i.labels)).flatten).count a =
            ((issues.map (fun i => i.labels)).flatten).count b ∧
          ((issues.map (fun i => i.labels)).flatten).indexOf a <
            ((issues.map (fun i => i.labels)).flatten).indexOf b))
      (calculateMetrics now issues).commonLabels ∧
    (∀ x ∈ (issues.map (fun i => i.labels)).flatten,
      x ∉ (calculateMetrics now issues).commonLabels →
      ∀ y ∈ (calculateMetrics now issues).commonLabels,
        ((issues.map (fun i => i.labels)).flatten).count x <
            ((issues.map (fun i => i.labels)).flatten).count y ∨
          (((issues.map (fun i => i.labels)).flatten).count x =
              ((issues.map (fun i => i.labels)).flatten).count y ∧
            ((issues.map (fun i => i.labels)).flatten).indexOf y <
              ((issues.map (fun i => i.labels)).flatten).indexOf x))) ∧
    (calculateMetrics 0
      [⟨"k1".toList, [], [], [], [], [], 0, 0, [], [],
        ["a".toList, "a".toList, "b".toList], [], none, none⟩,
       ⟨"k2".toList, [], [], [], [], [], 0, 0, [], [],
        ["c".toList, "a".toList, "b".toList], [], none, none⟩]).commonLabels
      = ["a".toList, "b".toList, "c".toList] := by
  refine ⟨?_, by decide⟩
  obtain ⟨hE1, hE2, hE3, hE4⟩ := labelCounts_spec issues hnp
  have hEidx : ∀ p ∈ labelCounts issues, isArrayIndexKey p.1 = false :=
    fun p hp => hnix p.1 ((hE3 p.1).mp (List.mem_map_of_mem Prod.fst hp))
  have hEO : entriesOrder (labelCounts issues) = labelCounts issues :=
    entriesOrder_eq_self _ hEidx
  have hcl : (calculateMetrics now issues).commonLabels =
      ((List.insertionSort countDescOrder (labelCounts issues)).take 5).map
        Prod.fst := by
    show ((List.insertionSort countDescOrder
      (entriesOrder (labelCounts issues))).take 5).map Prod.fst = _
    rw [hEO]
  have hperm := List.perm_insertionSort countDescOrder (labelCounts issues)
  have hSmem : ∀ p, p ∈ List.insertionSort countDescOrder
      (labelCounts issues) ↔ p ∈ labelCounts issues := fun p => hperm.mem_iff
  have hScount : ∀ p ∈ List.insertionSort countDescOrder
      (labelCounts issues),
      p.2 = JsCount.num
        (((issues.map (fun i => i.labels)).flatten).count p.1) :=
    fun p hp => hE2 p ((hSmem p).mp hp)
  have hS1 : ((List.insertionSort countDescOrder
      (labelCounts issues)).map Prod.fst).Nodup :=
    ((hperm.map Prod.fst).nodup_iff).mpr hE1
  have hPE : (labelCounts issues).Pairwise (fun x y : Str × JsCount =>
      ((issues.map (fun i => i.labels)).flatten).indexOf x.1 <
        ((issues.map (fun i => i.labels)).flatten).indexOf y.1) :=
    (@List.pairwise_map (Str × JsCount) Str Prod.fst
      (fun a b => ((issues.map (fun i => i.labels)).flatten).indexOf a <
        ((issues.map (fun i => i.labels)).flatten).indexOf b)
      (labelCounts issues)).mp hE4
  have htotal : ∀ a b, a ∈ labelCounts issues → b ∈ labelCounts issues →
      countDescOrder a b ∨ countDescOrder b a := by
    intro a b ha hb
    have hca := hE2 a ha
    have hcb := hE2 b hb
    rcases Nat.le_total
        (((issues.map (fun i => i.labels)).flatten).count b.1)
        (((issues.map (fun i => i.labels)).flatten).count a.1) with h | h
    · exact Or.inl ((countDescOrder_num a b _ _ hca hcb).mpr h)
    · exact Or.inr ((countDescOrder_num b a _ _ hcb hca).mpr h)
  have htrans : ∀ a b c, a ∈ labelCounts issues → b ∈ labelCounts issues →
      c ∈ labelCounts issues → countDescOrder a b → countDescOrder b c →
      countDescOrder a c := by
    intro a b c ha hb hc hab hbc
    have hca := hE2 a ha
    have hcb := hE2 b hb
    have hcc := hE2 c hc
    exact (countDescOrder_num a c _ _ hca hcc).mpr
      (Nat.le_trans ((countDescOrder_num b c _ _ hcb hcc).mp hbc)
        ((countDescOrder_num a b _ _ hca hcb).mp hab))
  have hstab := stable_insertionSort countDescOrder
    (fun x y : Str × JsCount =>
      ((issues.map (fun i => i.labels)).flatten).indexOf x.1 <
        ((issues.map (fun i => i.labels)).flatten).indexOf y.1)
    (labelCounts issues) htotal htrans hPE
  have hR : (List.insertionSort countDescOrder (labelCounts issues)).Pairwise
      (fun x y : Str × JsCount =>
        ((issues.map (fun i => i.labels)).flatten).count y.1 <
            ((issues.map (fun i => i.labels)).flatten).count x.1 ∨
          (((issues.map (fun i => i.labels)).flatten).count x.1 =
              ((issues.map (fun i => i.labels)).flatten).count y.1 ∧
            ((issues.map (fun i => i.labels)).flatten).indexOf x.1 <
              ((issues.map (fun i => i.labels)).flatten).indexOf y.1)) := by
    refine hstab.imp_of_mem ?_
    intro x y hx hy hs
    have hcx := hScount x hx
    have hcy := hScount y hy
    have hle := (countDescOrder_num x y _ _ hcx hcy).mp hs.1
    by_cases heq :
        ((issues.map (fun i => i.labels)).flatten).count x.1 =
          ((issues.map (fun i => i.labels)).flatten).count y.1
    · exact Or.inr ⟨heq,
        hs.2 ((countDescOrder_num y x _ _ hcy hcx).mpr (by omega))⟩
    · exact Or.inl (by omega)
  have htakeS : ((List.insertionSort countDescOrder
      (labelCounts issues)).take 5).Sublist
      (List.insertionSort countDescOrder (labelCounts issues)) :=
    List.take_sublist 5 _
  refine ⟨?_, ?_, ?_, ?_, ?_⟩
  · rw [hcl, List.length_map]
    exact List.length_take_le 5 _
  · rw [hcl]
    exact List.Nodup.sublist (htakeS.map Prod.fst) hS1
  · intro l hl
    rw [hcl] at hl
    obtain ⟨p, hp, hpl⟩ := List.mem_map.mp hl
    refine (hE3 l).mp ?_
    rw [← hpl]
    exact List.mem_map_of_mem Prod.fst ((hSmem p).mp (htakeS.mem hp))
  · rw [hcl]
    exact List.pairwise_map.mpr (List.Pairwise.sublist htakeS hR)
  · intro x hxFL hxcl y hycl
    obtain ⟨px, hpxE, hpxx⟩ := List.mem_map.mp ((hE3 x).mpr hxFL)
    have hpxS : px ∈ List.insertionSort countDescOrder (labelCounts issues) :=
      (hSmem px).mpr hpxE
    have hpxdrop : px ∈ (List.insertionSort countDescOrder
        (labelCounts issues)).drop 5 := by
      have := (List.take_append_drop 5
        (List.insertionSort countDescOrder (labelCounts issues))) ▸ hpxS
      rcases List.mem_append.mp this with hm | hm
      · exact absurd (hcl ▸ (hpxx ▸ List.mem_map_of_mem Prod.fst hm)) hxcl
      · exact hm
    rw [hcl] at hycl
    obtain ⟨py, hpytake, hpyy⟩ := List.mem_map.mp hycl
    have hRsplit := (List.take_append_drop 5
      (List.insertionSort countDescOrder (labelCounts issues))) ▸ hR
    have hrel := (List.pairwise_append.mp hRsplit).2.2 py hpytake px hpxdrop
    rw [hpxx, hpyy] at hrel
    rcases hrel with h | ⟨h1, h2⟩
    · exact Or.inl h
    · exact Or.inr ⟨h1.symm, h2⟩

/-- C7 witness: the amended theorem applied to one issue with six
distinct labels, none an array-index key or prototype name; the omitted
sixth label loses to the first listed one under count/first-seen order. -/
theorem claim7_witness :
    ((List.map (fun i => i.labels)
        [(⟨"k".toList, [], [], [], [], [], 0, 0, [], [],
          ["a".toList, "b".toList, "c".toList, "d".toList, "e".toList,
            "f".toList], [], none, none⟩ : SimplifiedIssue)]).flatten).count
        "f".toList <
      ((List.map (fun i => i.labels)
        [(⟨"k".toList, [], [], [], [], [], 0, 0, [], [],
          ["a".toList, "b".toList, "c".toList, "d".toList, "e".toList,
            "f".toList], [], none, none⟩ : SimplifiedIssue)]).flatten).count
        "a".toList ∨
    (((List.map (fun i => i.labels)
        [(⟨"k".toList, [], [], [], [], [], 0, 0, [], [],
          ["a".toList, "b".toList, "c".toList, "d".toList, "e".toList,
            "f".toList], [], none, none⟩ : SimplifiedIssue)]).flatten).count
        "f".toList =
      ((List.map (fun i => i.labels)
        [(⟨"k".toList, [], [], [], [], [], 0, 0, [], [],
          ["a".toList, "b".toList, "c".toList, "d".toList, "e".toList,
            "f".toList], [], none, none⟩ : SimplifiedIssue)]).flatten).count
        "a".toList ∧
      ((List.map (fun i => i.labels)
        [(⟨"k".toList, [], [], [], [], [], 0, 0, [], [],
          ["a".toList, "b".toList, "c".toList, "d".toList, "e".toList,
            "f".toList], [], none, none⟩ : SimplifiedIssue)]).flatten).indexOf
        "a".toList <
      ((List.map (fun i => i.labels)
        [(⟨"k".toList, [], [], [], [], [], 0, 0, [], [],
          ["a".toList, "b".toList, "c".toList, "d".toList, "e".toList,
            "f".toList], [], none, none⟩ : SimplifiedIssue)]).flatten).indexOf
        "f".toList) :=
  (claim7_tag_ranking 0
      [⟨"k".toList, [], [], [], [], [], 0, 0, [], [],
        ["a".toList, "b".toList, "c".toList, "d".toList, "e".toList,
          "f".toList], [], none, none⟩] (by decide) (by decide)).1.2.2.2.2
    "f".toList (by decide) (by decide) "a".toList (by decide)


/-- C1: the run-state marker is written only on full success, and then
with the pipeline start time: the outcome of `main` carries
`runStartTime` exactly when configuration, both connection tests, the
fetch (with at least one issue), the generative analysis, both
field-groupings of the dashboard step and the email delivery all
succeeded; in every other case — any step throwing, or zero issues
fetched — nothing is written, so the same window is retried next
invocation. -/
theorem claim1_runstate_only_on_success (env : OrchestratorEnv) :
    ((mainRun env).savedLastRun = none ∨
      (mainRun env).savedLastRun = some env.runStartTime) ∧
    ((mainRun env).savedLastRun = some env.runStartTime ↔
      (env.configOk = true ∧ env.jiraConnected = true ∧
        env.emailConfigValid = true ∧
        (∃ issues, env.fetchResult = .ok issues ∧ issues ≠ [] ∧
          (∃ gA, groupIssuesByField (simplifyIssues issues)
            productAreaField = .ok gA) ∧
          (∃ gT, groupIssuesByField (simplifyIssues issues)
            pageFeatureThemeField = .ok gT)) ∧
        (∃ t, env.claudeResponse = .ok t) ∧
        env.emailResult = .ok ())) ∧
    (∀ issues, env.fetchResult = .ok issues → issues = [] →
      (mainRun env).savedLastRun = none) := by
  obtain ⟨lr, cfg, jc, ev, fr, cr, er, nw, rst⟩ := env
  cases cfg <;> cases jc <;> cases ev <;>
    first
    | (simp [mainRun]; done)
    | skip
  all_goals cases fr with
  | error e => simp [mainRun]
  | ok issues =>
    cases issues with
    | nil => simp [mainRun]
    | cons a t =>
      have hlen : (simplifyIssues (a :: t)).length = t.length + 1 := by
        simp [simplifyIssues]
      cases cr with
      | error e => simp [mainRun, analyzeIssues, hlen]
      | ok resp =>
        cases hga : groupIssuesByField (simplifyIssues (a :: t))
            productAreaField with
        | error e => simp [mainRun, analyzeIssues, hlen, hga]
        | ok gA =>
          cases hgt : groupIssuesByField (simplifyIssues (a :: t))
              pageFeatureThemeField with
          | error e => simp [mainRun, analyzeIssues, hlen, hga, hgt]
          | ok gT =>
            cases er with
            | error e => simp [mainRun, analyzeIssues, hlen, hga, hgt]
            | ok u => simp [mainRun, analyzeIssues, hlen, hga, hgt]

/-- C1 witness: an environment where everything succeeds but the fetch
returns zero issues; the theorem's last conjunct gives that no run-state
marker is written. -/
theorem claim1_witness :
    (mainRun ⟨none, true, true, true, .ok [], .ok [], .ok (), 0, 7⟩).savedLastRun
      = none :=
  (claim1_runstate_only_on_success
    ⟨none, true, true, true, .ok [], .ok [], .ok (), 0, 7⟩).2.2 [] rfl rfl
